import Mathlib

/-!
Verification of the nginx-config-parser core (`src/lib/parser.js`) against its
natural-language specification.

The JavaScript source is shallowly embedded below.  JavaScript strings are
modelled as `List Char` (`Str`); the dynamic values stored in the constructed
JSON tree (strings, arrays, plain objects) are modelled by the tagged type
`JsValue`, with JS objects as insertion-ordered association lists.  Stateful
loops become explicit state-passing folds; the only exception thrown by the
text-to-tree direction (`IncludeResolutionError`) and the `TypeError` thrown
by `parse` are modelled with `Except`.  Filesystem and glob access performed
by the include machinery are abstracted into an oracle argument
(`IncludeOracle`) that returns the already-parsed configurations matching a
pattern, mirroring the recursive `readConfigFile` calls in the source.

Modelling notes, stated once here:
* JS in-place mutation of the tree is modelled by functional update; the tree
  is tree-shaped by construction (each node inserted once), so no aliasing is
  observable.
* JS object property order is modelled as insertion order (association
  lists); the JS quirk that integer-like keys enumerate first is outside the
  model (such keys do not arise from the parser's own writes).
* Array element access `a[s]` with a non-canonical-index string `s`, and
  property reads such as `a.length` through a path, are modelled as absent;
  `resolveSet` writes into an array at an out-of-range index (a sparse JS
  write that the parser never performs) leave the array unchanged.
-/

namespace NginxParser

/-- JavaScript strings, modelled as lists of characters. -/
abbrev Str := List Char

/-- Opening curly brace character (avoids brace literals). -/
def lbrace : Char := Char.ofNat 123

/-- Closing curly brace character (avoids brace literals). -/
def rbrace : Char := Char.ofNat 125

/-- JS `\s` whitespace class, restricted to the ASCII whitespace characters
that can occur in the configurations the parser handles. -/
def isWs (c : Char) : Bool :=
  c = ' ' || c = '\t' || c = '\n' || c = '\r' || c = Char.ofNat 11 || c = Char.ofNat 12

/-- Drop leading whitespace (one side of JS `String.prototype.trim`). -/
def trimL : Str → Str
  | [] => []
  | c :: r => if isWs c then trimL r else c :: r

/-- JS `String.prototype.trim`: drop whitespace at both ends. -/
def trim (s : Str) : Str :=
  ((trimL s.reverse).reverse |> trimL)

/-- JS `String.prototype.split(sep)` for a single-character separator.
`"".split` is `[""]`, matching JS. -/
def splitOnChar (sep : Char) : Str → List Str
  | [] => [[]]
  | c :: rest =>
    match splitOnChar sep rest with
    | [] => [[]]
    | h :: t => if c = sep then [] :: h :: t else (c :: h) :: t

/-- JS `String.prototype.endsWith` for a single character. -/
def endsWithChar (c : Char) (s : Str) : Bool :=
  match s.getLast? with
  | some c' => c = c'
  | none => false

/-- JS `String.prototype.startsWith`. -/
def startsWithStr (pre s : Str) : Bool := pre.isPrefixOf s

/-- JS `String.prototype.endsWith`. -/
def endsWithStr (suf s : Str) : Bool := suf.isSuffixOf s

/-- JS `String.prototype.replace(pat, "")` with a *string* (not regex)
pattern: remove the first occurrence of `pat` only. -/
def removeFirst (pat : Str) : Str → Str
  | [] => []
  | c :: r =>
    if pat.isPrefixOf (c :: r) then (c :: r).drop pat.length
    else c :: removeFirst pat r

/-- Canonical decimal rendering of a natural number (JS number-to-string for
the array indices the parser appends to its parent path). -/
def natToStr (n : Nat) : Str := Nat.toDigits 10 n

/-- JS array indexing `a[s]`: `s` hits an element exactly when it is the
canonical decimal representation of an index.  Decodes such strings. -/
def strToIndex? (s : Str) : Option Nat :=
  if s.all Char.isDigit ∧ s ≠ [] ∧ (s.head? = some '0' → s = ['0']) then
    some (s.foldl (fun a c => a * 10 + (c.toNat - 48)) 0)
  else none

/-- JS `!isNaN(parseInt(s, 10))`: after optional leading whitespace and an
optional sign there is at least one decimal digit. -/
def parseIntNotNaN (s : Str) : Bool :=
  match trimL s with
  | [] => false
  | c :: r =>
    if c = '+' ∨ c = '-' then
      match r with
      | [] => false
      | c2 :: _ => c2.isDigit
    else c.isDigit

/-- The dynamic values stored in the constructed JSON tree: JS strings,
arrays and plain objects (insertion-ordered). -/
inductive JsValue where
  | str (s : Str)
  | arr (elems : List JsValue)
  | obj (entries : List (Str × JsValue))

mutual

/-- Structural equality test for `JsValue` (deriving cannot handle the
nested occurrences, so it is written out). -/
def jsBeq : JsValue → JsValue → Bool
  | .str a, .str b => a == b
  | .arr a, .arr b => jsBeqList a b
  | .obj a, .obj b => jsBeqEntries a b
  | _, _ => false

/-- Element-wise `jsBeq` on lists of values. -/
def jsBeqList : List JsValue → List JsValue → Bool
  | [], [] => true
  | a :: r, b :: s => jsBeq a b && jsBeqList r s
  | _, _ => false

/-- Entry-wise `jsBeq` on objects. -/
def jsBeqEntries : List (Str × JsValue) → List (Str × JsValue) → Bool
  | [], [] => true
  | (k, v) :: r, (k2, v2) :: s => k == k2 && jsBeq v v2 && jsBeqEntries r s
  | _, _ => false

end

mutual

theorem jsBeq_eq : ∀ a b : JsValue, jsBeq a b = true ↔ a = b
  | .str a, .str b => by simp [jsBeq]
  | .str _, .arr _ => by simp [jsBeq]
  | .str _, .obj _ => by simp [jsBeq]
  | .arr _, .str _ => by simp [jsBeq]
  | .arr a, .arr b => by simp [jsBeq, jsBeqList_eq a b]
  | .arr _, .obj _ => by simp [jsBeq]
  | .obj _, .str _ => by simp [jsBeq]
  | .obj _, .arr _ => by simp [jsBeq]
  | .obj a, .obj b => by simp [jsBeq, jsBeqEntries_eq a b]

theorem jsBeqList_eq : ∀ a b : List JsValue, jsBeqList a b = true ↔ a = b
  | [], [] => by simp [jsBeqList]
  | [], _ :: _ => by simp [jsBeqList]
  | _ :: _, [] => by simp [jsBeqList]
  | a :: r, b :: s => by
      simp [jsBeqList, jsBeq_eq a b, jsBeqList_eq r s]

theorem jsBeqEntries_eq :
    ∀ a b : List (Str × JsValue), jsBeqEntries a b = true ↔ a = b
  | [], [] => by simp [jsBeqEntries]
  | [], _ :: _ => by simp [jsBeqEntries]
  | _ :: _, [] => by simp [jsBeqEntries]
  | (k, v) :: r, (k2, v2) :: s => by
      simp [jsBeqEntries, jsBeq_eq v v2, jsBeqEntries_eq r s, and_assoc]

end

instance : DecidableEq JsValue := fun a b => decidable_of_iff _ (jsBeq_eq a b)

/-- Entries of a root configuration object. -/
abbrev Entries := List (Str × JsValue)

/-- JS property lookup `o[k]` on a plain object (association list). -/
def lookupEntry (k : Str) : Entries → Option JsValue
  | [] => none
  | (k', v) :: r => if k' = k then some v else lookupEntry k r

/-- JS property write `o[k] = v`: update in place if the key exists,
otherwise append at the end (insertion order). -/
def setEntry (k : Str) (v : JsValue) : Entries → Entries
  | [] => [(k, v)]
  | (k', v') :: r => if k' = k then (k, v) :: r else (k', v') :: setEntry k v r

/-- JS truthiness of the values that occur in the tree: only the empty
string is falsy (arrays and objects are always truthy). -/
def truthy : JsValue → Bool
  | .str s => ¬s.isEmpty
  | _ => true

/-- `unsafeKey` from the source: convert every `!` in a key back to `.`. -/
def unsafeKey (key : Str) : Str := key.map fun c => if c = '!' then '.' else c

/-- `safeKey` from the source: convert every `.` in a key to `!`. -/
def safeKey (key : Str) : Str := key.map fun c => if c = '.' then '!' else c

/-- One step of the `reduce` inside `resolve`: `prev[unsafeKey(curr)]` with
the `typeof prev === 'object' && prev` guard.  In JS a missing step makes
`prev` become `undefined` and every later step stay `undefined`, which is
the same as propagating `none`. -/
def childAt (t : JsValue) (s : Str) : Option JsValue :=
  match t with
  | .obj es => lookupEntry (unsafeKey s) es
  | .arr l =>
    match strToIndex? (unsafeKey s) with
    | some i => l[i]?
    | none => none
  | .str _ => none

/-- `resolve` from the source, after `path.split('.')`: walk the tree
segment by segment, yielding the found value or `none` (JS `undefined`). -/
def resolveSegs : JsValue → List Str → Option JsValue
  | t, [] => some t
  | t, s :: rest =>
    match childAt t s with
    | some c => resolveSegs c rest
    | none => none

/-- `resolve(obj, path)` from the source: retrieve a value from the tree via
a dot-notation path. -/
def resolve (obj : Entries) (path : Str) : Option JsValue :=
  resolveSegs (.obj obj) (splitOnChar '.' path)

/-- The `while` loop of `resolveSet`, written as recursion on the remaining
path components; the in-place mutation of nested objects becomes a
functional update of the parent on the way out.
* empty component list: the loop body never runs and the function returns
  `false` (unreachable from `split`, which never yields `[]`);
* a string mid-walk fails the `typeof obj === 'object'` test;
* on the last component the value is written into the current container
  (for an array: replace in range, JS would push at the exact length, and an
  out-of-range sparse write is left unmodelled as no change), returning
  `true` as the source does;
* otherwise descend into `obj[unsafeKey(components.shift())]`; a missing
  child makes the next loop test fail, returning `false` with no change. -/
def resolveSetSegs : JsValue → List Str → JsValue → Bool × JsValue
  | t, [], _ => (false, t)
  | .str s, _ :: _, _ => (false, .str s)
  | .obj es, [s], v => (true, .obj (setEntry (unsafeKey s) v es))
  | .arr l, [s], v =>
    match strToIndex? (unsafeKey s) with
    | some i =>
      if i < l.length then (true, .arr (l.set i v))
      else if i = l.length then (true, .arr (l ++ [v]))
      else (true, .arr l)
    | none => (true, .arr l)
  | .obj es, s :: s2 :: rest, v =>
    match lookupEntry (unsafeKey s) es with
    | some c =>
      let r := resolveSetSegs c (s2 :: rest) v
      (r.1, .obj (setEntry (unsafeKey s) r.2 es))
    | none => (false, .obj es)
  | .arr l, s :: s2 :: rest, v =>
    match strToIndex? (unsafeKey s) with
    | some i =>
      match l[i]? with
      | some c =>
        let r := resolveSetSegs c (s2 :: rest) v
        (r.1, .arr (l.set i r.2))
      | none => (false, .arr l)
    | none => (false, .arr l)

/-- `resolveSet(obj, path, val)` from the source: store a value in the tree
via a dot-notation path, reporting success. -/
def resolveSet (obj : Entries) (path : Str) (val : JsValue) : Bool × Entries :=
  match resolveSetSegs (.obj obj) (splitOnChar '.' path) val with
  | (b, .obj es) => (b, es)
  | (b, _) => (b, obj)

/-- The `mergedValues` construction of `resolveAppendSet`: an existing
array contributes its elements (`mergedValues = existingVal` and array
values are pushed element-wise), any other value is pushed as one element. -/
def mergeBase : JsValue → List JsValue
  | .arr l => l
  | v => [v]

/-- `true` exactly on array values (JS `Array.isArray`). -/
def isArrVal : JsValue → Bool
  | .arr _ => true
  | _ => false

/-- `resolveAppendSet(json, key, val)` from the source: merge a new value
with an existing one, promoting to an array; returns the flag the source
returns (`isInArray`) together with the updated tree.  `if (existingVal)` is
JS truthiness, so an existing empty-string value is overwritten, not merged. -/
def resolveAppendSet (json : Entries) (key : Str) (val : JsValue) :
    Bool × Entries :=
  match resolve json key with
  | some ev =>
    if truthy ev then
      (true, (resolveSet json key (.arr (mergeBase ev ++ mergeBase val))).2)
    else (false, (resolveSet json key val).2)
  | none => (false, (resolveSet json key val).2)

/-- `appendValue(json, key, val, parent)` from the source: prepend the
parent path when one is given (`if (parent)` is falsy for the empty
string, which is how `toJSON` starts out). -/
def appendValue (json : Entries) (key : Str) (val : JsValue)
    (parent : Str := []) : Bool × Entries :=
  if parent ≠ [] then resolveAppendSet json (parent ++ '.' :: key) val
  else resolveAppendSet json key val

/-! ### The line rewriting done at the top of the `lines.forEach` body

The source applies three global regex replacements to each physical line:
`.replace(/(\s+{)/g, '\n$1\n')`, then `.replace(/(;\s*)}/g, '$1\n}\n')`,
then `.replace(/;\s*?$/g, ';\n')`, and splits the result on newlines. -/

/-- Scanner for `.replace(/(\s+{)/g, '\n$1\n')`.  `pend` holds (reversed) a
run of whitespace characters read but not yet emitted; when the run turns
out to be directly followed by an opening brace, the whole match is wrapped
in newlines and the global scan resumes after the brace. -/
def braceOpenSplitAux : Str → Str → Str
  | pend, [] => pend.reverse
  | pend, c :: r =>
    if isWs c then braceOpenSplitAux (c :: pend) r
    else if c = lbrace ∧ pend ≠ [] then
      '\n' :: (pend.reverse ++ lbrace :: '\n' :: braceOpenSplitAux [] r)
    else pend.reverse ++ c :: braceOpenSplitAux [] r

/-- `.replace(/(\s+{)/g, '\n$1\n')`: a run of whitespace directly followed
by an opening brace is wrapped in newlines. -/
def braceOpenSplit (s : Str) : Str := braceOpenSplitAux [] s

/-- Scanner for `.replace(/(;\s*)}/g, '$1\n}\n')`.  A `some pend` state
means a semicolon was read and `pend` holds (reversed) the whitespace run
after it; a closing brace then completes the match and gets newlines
inserted around it; any other character abandons the attempted match (a new
one can only start at another semicolon, so the left-to-right global regex
scan behaves identically). -/
def braceCloseSplitAux : Option Str → Str → Str
  | none, [] => []
  | some pend, [] => ';' :: pend.reverse
  | none, c :: r =>
    if c = ';' then braceCloseSplitAux (some []) r
    else c :: braceCloseSplitAux none r
  | some pend, c :: r =>
    if isWs c then braceCloseSplitAux (some (c :: pend)) r
    else if c = rbrace then
      ';' :: (pend.reverse ++ '\n' :: rbrace :: '\n' :: braceCloseSplitAux none r)
    else if c = ';' then
      ';' :: (pend.reverse ++ braceCloseSplitAux (some []) r)
    else ';' :: (pend.reverse ++ c :: braceCloseSplitAux none r)

/-- `.replace(/(;\s*)}/g, '$1\n}\n')`: a semicolon, optional whitespace and
a closing brace get newlines inserted after the semicolon part and around
the brace. -/
def braceCloseSplit (s : Str) : Str := braceCloseSplitAux none s

/-- `.replace(/;\s*?$/g, ';\n')`: when the line ends in a semicolon followed
only by whitespace, everything from that (last such) semicolon on is
replaced by `";\n"`. -/
def trailingSemiSplit (s : Str) : Str :=
  match s.reverse.dropWhile isWs with
  | c :: r2 => if c = ';' then r2.reverse ++ ';' :: ['\n'] else s
  | [] => s

/-- The full rewrite of one physical line into `innerLines`, including the
final `.split(/\n/)`. -/
def innerLinesOf (line : Str) : List Str :=
  splitOnChar '\n' (trailingSemiSplit (braceCloseSplit (braceOpenSplit line)))

/-! ### The `toJSON` state machine -/

/-- The parse options read by `toJSON` (`parseIncludes`,
`ignoreIncludeErrors`; absent fields are JS-falsy).  `includesRoot` only
feeds the filesystem side, which lives in the include oracle. -/
structure Options where
  parseIncludes : Bool := false
  ignoreIncludeErrors : Bool := false
deriving DecidableEq, Repr

/-- The include machinery (`glob.sync` plus a recursive `readConfigFile` on
each match) abstracted as an oracle from the resolved pattern to the list of
parsed configurations, in glob order. -/
abbrev IncludeOracle := Str → List Entries

/-- The exceptions surfaced by the embedded code: the
`IncludeResolutionError` thrown by `toJSON` and the `TypeError` thrown by
`parse`. -/
inductive PErr where
  | includeResolutionError (pattern : Str)
  | typeError
deriving DecidableEq

/-- The mutable locals of `toJSON`, threaded through the line loop. -/
structure PState where
  json : Entries := []
  parent : Str := []
  chunkedLine : Option Str := none
  countOfParentsThatAreArrays : Nat := 0
  isInLuaBlock : Bool := false
  luaBlockValue : List Str := []
deriving DecidableEq

/-- Handler for an object-opening line (case 1 in the source). -/
def stepOpen (st : PState) (line : Str) : PState :=
  let key := safeKey (trim line.dropLast)
  let inLua := if endsWithStr "by_lua_block".data key then true else st.isInLuaBlock
  let parent' := if st.parent ≠ [] then st.parent ++ '.' :: key else key
  let r := appendValue st.json parent' (.obj [])
  if r.1 then
    -- an array was used: look the array back up and append its last index
    let idx :=
      match resolve r.2 parent' with
      | some (.arr l) => l.length - 1
      | some (.str s) => s.length - 1
      | _ => 0
      -- Unreachable when the promotion flag is true: the existing value was
      -- truthy, so the merge write succeeds and the lookup is the merged
      -- array.  (In JS the object case would yield a `NaN` path segment and
      -- the undefined case would throw; neither arises.)
    { st with
      json := r.2
      parent := parent' ++ '.' :: natToStr idx
      chunkedLine := none
      countOfParentsThatAreArrays := st.countOfParentsThatAreArrays + 1
      isInLuaBlock := inLua }
  else
    { st with json := r.2, parent := parent', chunkedLine := none, isInLuaBlock := inLua }

/-- The pattern the include branch hands to the resolver: the literal
`include ` prefix and the first `;` removed, then trimmed (`replace` with a
string pattern removes only the first occurrence). -/
def includePatternOf (line : Str) : Str :=
  trim (removeFirst [';'] (removeFirst "include ".data line))

/-- The merge loop of the include branch: for every resolved configuration,
append each of its top-level key/value pairs under the current parent. -/
def mergeIncludes (files : List Entries) (parent : Str) (json : Entries) : Entries :=
  files.foldl
    (fun j cfg => cfg.foldl (fun j2 kv => (appendValue j2 kv.1 kv.2 parent).2) j)
    json

/-- Handler for an include line (case 2 in the source): resolve the pattern
through the oracle, merge every resolved file, and raise
`IncludeResolutionError` when nothing matched and errors are not ignored.
(The source merges before testing `files.length`; with zero files the merge
is a no-op, so testing first is equivalent.) -/
def stepInclude (opts : Options) (oracle : IncludeOracle) (st : PState)
    (line : Str) : Except PErr PState :=
  if (oracle (includePatternOf line)).isEmpty ∧ ¬opts.ignoreIncludeErrors then
    .error (.includeResolutionError (includePatternOf line))
  else
    .ok { st with
      json := mergeIncludes (oracle (includePatternOf line)) st.parent st.json
      chunkedLine := none }

/-- Handler for a standard property line (case 3 in the source). -/
def stepDirective (st : PState) (line : Str) : PState :=
  let parts := splitOnChar ' ' line
  let key0 := safeKey (parts.headD [])
  let val0 := trim (List.intercalate [' '] parts.tail)
  let key := if endsWithChar ';' key0 then key0.dropLast else key0
  let val := val0.dropLast
  { st with json := (appendValue st.json key (.str val) st.parent).2, chunkedLine := none }

/-- First half of the object-closing handler: when in a lua block, store
the buffered lines under `_lua` and leave capture mode. -/
def stepCloseLua (st : PState) : PState :=
  if st.isInLuaBlock then
    { st with
      json := (appendValue st.json "_lua".data
        (.arr (st.luaBlockValue.map .str)) st.parent).2
      luaBlockValue := []
      isInLuaBlock := false }
  else st

/-- Second half of the object-closing handler: pop the parent path (and a
numeric index when the array bookkeeping says the level was an array
element). -/
def stepClosePop (st : PState) : PState :=
  if st.countOfParentsThatAreArrays > 0 ∧
      parseIntNotNaN ((splitOnChar '.' st.parent).getLastD []) then
    { st with
      parent := List.intercalate ['.'] (splitOnChar '.' st.parent).dropLast.dropLast
      countOfParentsThatAreArrays := st.countOfParentsThatAreArrays - 1
      chunkedLine := none }
  else
    { st with
      parent := List.intercalate ['.'] (splitOnChar '.' st.parent).dropLast
      countOfParentsThatAreArrays := st.countOfParentsThatAreArrays
      chunkedLine := none }

/-- Handler for an object-closing line (case 4 in the source). -/
def stepClose (st : PState) : PState := stepClosePop (stepCloseLua st)

/-- `chunkedLine && (line = chunkedLine + ' ' + line)`: join a pending
chunked line when one is buffered (`null` and the empty string are falsy). -/
def joinChunk (chunked : Option Str) (line1 : Str) : Str :=
  match chunked with
  | some cl => if cl = [] then line1 else cl ++ ' ' :: line1
  | none => line1

/-- The body of `innerLines.forEach`: trim, handle lua capture, join a
pending chunked line, then dispatch on the line ending. -/
def processInnerLine (opts : Options) (oracle : IncludeOracle) (st : PState)
    (line0 : Str) : Except PErr PState :=
  if trim line0 = [] then .ok st
  else if st.isInLuaBlock ∧ ¬endsWithChar rbrace (trim line0) then
    .ok { st with luaBlockValue := st.luaBlockValue ++ [trim line0] }
  else if endsWithChar lbrace (joinChunk st.chunkedLine (trim line0)) then
    .ok (stepOpen st (joinChunk st.chunkedLine (trim line0)))
  else if startsWithStr "include".data (joinChunk st.chunkedLine (trim line0)) ∧
      opts.parseIncludes then
    stepInclude opts oracle st (joinChunk st.chunkedLine (trim line0))
  else if endsWithChar ';' (joinChunk st.chunkedLine (trim line0)) then
    .ok (stepDirective st (joinChunk st.chunkedLine (trim line0)))
  else if endsWithChar rbrace (joinChunk st.chunkedLine (trim line0)) then
    .ok (stepClose st)
  else .ok { st with chunkedLine := some (joinChunk st.chunkedLine (trim line0)) }

/-- `Except`-aware fold used for the two nested `forEach` loops. -/
def foldSteps (f : PState → Str → Except PErr PState) :
    PState → List Str → Except PErr PState
  | st, [] => .ok st
  | st, l :: r =>
    match f st l with
    | .ok st' => foldSteps f st' r
    | .error e => .error e

/-- The body of `lines.forEach`: trim, skip blank and comment lines, strip a
trailing same-line comment, rewrite into inner lines and process each. -/
def processLine (opts : Options) (oracle : IncludeOracle) (st : PState)
    (lineRaw0 : Str) : Except PErr PState :=
  if trim lineRaw0 = [] ∨ (trim lineRaw0).headD ' ' = '#' then .ok st
  else
    foldSteps (processInnerLine opts oracle) st
      (innerLinesOf (trim ((trim lineRaw0).takeWhile (· ≠ '#'))))

/-- `toJSON(conf, options)` from the source.  `conf.replace('\t', '')`
removes only the first tab in the whole string (string, not regex,
pattern), then the string is split into physical lines. -/
def toJSON (conf : Str) (opts : Options := {}) (oracle : IncludeOracle := fun _ => []) :
    Except PErr Entries :=
  (foldSteps (processLine opts oracle) {}
    (splitOnChar '\n' (removeFirst ['\t'] conf))).map (·.json)

instance {ε α : Type} [DecidableEq ε] [DecidableEq α] : DecidableEq (Except ε α)
  | .error e, .error f => decidable_of_iff (e = f) (by simp)
  | .error _, .ok _ => isFalse (by simp)
  | .ok _, .error _ => isFalse (by simp)
  | .ok a, .ok b => decidable_of_iff (a = b) (by simp)

/-! ### The serializer `toConf` -/

/-- `'    '.repeat(depth)` and `' '.repeat(n)`. -/
def spaces (n : Nat) : Str := List.replicate n ' '

/-- The `longestKeyLen` fold at the top of `recurse` (initial value 1). -/
def longestKeyLen (es : Entries) : Nat :=
  es.foldl (fun m kv => max m kv.1.length) 1

/-- String coercion of one captured lua line (always stored as a string). -/
def luaLineOf : JsValue → Str
  | .str s => s
  | _ => []


mutual

/-- The body of the `for (const key in obj)` emission loop of `recurse`,
one entry at a time.  `longest` is the precomputed `longestKeyLen` of the
enclosing object and `depth` the current nesting depth. -/
def confEntries : Entries → Nat → Nat → Str
  | [], _, _ => []
  | (k, v) :: rest, longest, depth =>
    confEntry k v longest depth ++ confEntries rest longest depth

/-- Emission of a single key/value pair of `recurse`:
* array values: the `_lua` special case joins the raw lines with
  newline-plus-indent; otherwise each element becomes either a full block
  (for objects) or a padded `key value;` line;
* object values: `key {`, recursion at `depth + 1`, `}` and a blank line;
* string values: a padded and trimmed `key value;` line. -/
def confEntry (k : Str) (v : JsValue) (longest depth : Nat) : Str :=
  let indent := spaces (4 * depth)
  let keyValIndent := spaces (longest - k.length + 4)
  match v with
  | .str s => indent ++ trim (k ++ keyValIndent ++ s) ++ ';' :: ['\n']
  | .obj es =>
    indent ++ k ++ ' ' :: lbrace :: '\n' ::
      (confEntries es (longestKeyLen es) (depth + 1) ++ indent ++ rbrace :: '\n' :: ['\n'])
  | .arr l =>
    if k = "_lua".data then
      (if l.length > 0 then indent else []) ++
        List.intercalate ('\n' :: indent) (l.map luaLineOf) ++ ['\n']
    else confArrItems k l longest depth

/-- The `val.forEach(subVal => ...)` loop for a non-`_lua` array value. -/
def confArrItems (k : Str) : List JsValue → Nat → Nat → Str
  | [], _, _ => []
  | sub :: rest, longest, depth =>
    let indent := spaces (4 * depth)
    let item :=
      match sub with
      | .obj es =>
        -- `typeof subVal === 'object'`: wrapped as a block, spacing one blank
        indent ++
          trim (k ++ ' ' :: (' ' :: lbrace :: '\n' ::
            (confEntries es (longestKeyLen es) (depth + 1) ++ indent ++
              rbrace :: '\n' :: ['\n']))) ++ ['\n']
      | .arr l2 =>
        -- a nested array is also `typeof 'object'` in JS; the parser never
        -- produces arrays directly inside arrays, so the recursion over its
        -- integer keys is left unmodelled
        indent ++
          trim (k ++ ' ' :: (' ' :: lbrace :: '\n' ::
            (indent ++ rbrace :: '\n' :: ['\n']))) ++ ['\n']
      | .str s =>
        indent ++ trim (k ++ spaces (longest - k.length + 4) ++ s) ++ ';' :: ['\n']
    item ++ confArrItems k rest longest depth

end

/-- `toConf(json)` from the source: `recurse(json, 0)`. -/
def toConf (json : Entries) : Str :=
  confEntries json (longestKeyLen json) 0

/-! ### The `parse` wrapper -/

/-- The dynamic argument of `parse(mixed, options)`.  A `Buffer` is
modelled by the UTF-8 text it decodes to.  `jsNull` is separate because
`typeof null === 'object'` in JS, so `null` reaches `toConf` (whose
`for...in` loop then runs zero times). -/
inductive Mixed where
  | buf (s : Str)
  | objVal (es : Entries)
  | jsNull
  | strVal (s : Str)
  | numVal (n : Int)
  | boolVal (b : Bool)
  | undef
deriving DecidableEq

/-- The two possible successful results of `parse`: a config string (from
`toConf`) or a parsed tree (from `toJSON`). -/
inductive ParseResult where
  | conf (s : Str)
  | json (es : Entries)
deriving DecidableEq

/-- `parse(mixed, options)` from the source: a `Buffer` is first converted
to a UTF-8 string; then `typeof mixed === 'object'` dispatches to `toConf`,
`typeof mixed === 'string'` to `toJSON`, and anything else throws
`TypeError`. -/
def parse (mixed : Mixed) (opts : Options := {})
    (oracle : IncludeOracle := fun _ => []) : Except PErr ParseResult :=
  match mixed with
  | .buf s => (toJSON s opts oracle).map .json
  | .objVal es => .ok (.conf (toConf es))
  | .jsNull => .ok (.conf [])
  | .strVal s => (toJSON s opts oracle).map .json
  | .numVal _ => .error .typeError
  | .boolVal _ => .error .typeError
  | .undef => .error .typeError

/-! ### Definitions used to state the claims -/

/-- The path encoding used by `toJSON`: each key is made safe and the keys
are joined with the dot separator (the claim's `encode`). -/
def encodePath (ks : List Str) : Str :=
  List.intercalate ['.'] (ks.map safeKey)

/-- The path decoding used by `resolve` and `resolveSet`: split on the dot
separator and undo the escaping per segment (the claim's `decode`). -/
def decodePath (t : Str) : List Str :=
  (splitOnChar '.' t).map unsafeKey

/-- Spec-side characterization of when the `resolveSet` walk succeeds:
every intermediate segment resolves to an existing object-like container
(object or array) and the walk reaches the last segment inside one. -/
def walkOk : JsValue → List Str → Bool
  | .str _, _ => false
  | _, [] => false
  | .obj _, [_] => true
  | .arr _, [_] => true
  | .obj es, s :: s2 :: rest =>
    match lookupEntry (unsafeKey s) es with
    | some c => walkOk c (s2 :: rest)
    | none => false
  | .arr l, s :: s2 :: rest =>
    match strToIndex? (unsafeKey s) with
    | some i =>
      match l[i]? with
      | some c => walkOk c (s2 :: rest)
      | none => false
    | none => false

/-- Like `walkOk`, but additionally requires the final container (the one
receiving the write) to be an object, so that the written value can be read
back by key. -/
def finalIsObj : JsValue → List Str → Bool
  | .str _, _ => false
  | _, [] => false
  | .obj _, [_] => true
  | .arr _, [_] => false
  | .obj es, s :: s2 :: rest =>
    match lookupEntry (unsafeKey s) es with
    | some c => finalIsObj c (s2 :: rest)
    | none => false
  | .arr l, s :: s2 :: rest =>
    match strToIndex? (unsafeKey s) with
    | some i =>
      match l[i]? with
      | some c => finalIsObj c (s2 :: rest)
      | none => false
    | none => false

/-- Holds when the final lookup step of `resolveSegs`/`resolveSetSegs` on
this path happens inside an array (an array-element write has no enclosing
key, so the collection-size accounting of claim C9 does not apply to it). -/
def finalContainerArr : JsValue → List Str → Bool
  | .arr _, [_] => true
  | .obj es, s :: s2 :: rest =>
    match lookupEntry (unsafeKey s) es with
    | some c => finalContainerArr c (s2 :: rest)
    | none => false
  | .arr l, s :: s2 :: rest =>
    match strToIndex? (unsafeKey s) with
    | some i =>
      match l[i]? with
      | some c => finalContainerArr c (s2 :: rest)
      | none => false
    | none => false
  | _, _ => false

/-- The per-entry size condition of claim C9: an array value sitting under
an object key must either be under the reserved key `_lua` or have at least
two elements. -/
def entryCond (k : Str) : JsValue → Bool
  | .arr l => decide (k = "_lua".data) || decide (2 ≤ l.length)
  | _ => true

mutual

/-- Claim C9's invariant on values: every array-valued object entry in the
tree satisfies `entryCond` (at least 2 elements unless keyed `_lua`),
recursively. -/
def goodVal : JsValue → Bool
  | .str _ => true
  | .arr l => goodList l
  | .obj es => goodEntries es

/-- `goodVal` on every element of an array. -/
def goodList : List JsValue → Bool
  | [] => true
  | v :: r => goodVal v && goodList r

/-- `goodVal` plus `entryCond` on every entry of an object. -/
def goodEntries : Entries → Bool
  | [] => true
  | (k, v) :: r => goodVal v && entryCond k v && goodEntries r

end

/-- The last element of a split path (total, with the JS-style default of
an empty segment; split results are never empty). -/
def lastSeg (segs : List Str) : Str := segs.getLastD []

/-- The text of one serialized scalar line of `toConf`, as claim C7
describes it (with the `.trim()` the source applies): indentation, key,
value padded to the common column, and a terminating semicolon. -/
def scalarLine (longest depth : Nat) (k : Str) (v : JsValue) : Str :=
  spaces (4 * depth) ++ trim (k ++ spaces (longest - k.length + 4) ++ luaLineOf v) ++
    ';' :: ['\n']

/-- `true` exactly on string values (used to restrict C7 to scalar-only
blocks). -/
def isStrVal : JsValue → Bool
  | .str _ => true
  | _ => false

/-! ## Helper lemmas -/

theorem splitOnChar_ne_nil (c : Char) (s : Str) : splitOnChar c s ≠ [] := by
  cases s with
  | nil => simp [splitOnChar]
  | cons a r =>
    unfold splitOnChar
    split
    · simp
    · split <;> simp

theorem splitOnChar_no_sep (c : Char) (s : Str) (h : c ∉ s) :
    splitOnChar c s = [s] := by
  induction s with
  | nil => rfl
  | cons a r ih =>
    simp only [List.mem_cons, not_or] at h
    have hne : ¬a = c := fun hh => h.1 hh.symm
    simp [splitOnChar, ih h.2, hne]

theorem splitOnChar_append (c : Char) (a b : Str) (h : c ∉ a) :
    splitOnChar c (a ++ c :: b) = a :: splitOnChar c b := by
  induction a with
  | nil =>
    simp only [List.nil_append, splitOnChar]
    split
    · rename_i heq
      exact absurd heq (splitOnChar_ne_nil c b)
    · rename_i x t heq
      simp [heq]
  | cons x r ih =>
    simp only [List.mem_cons, not_or] at h
    have hne : ¬x = c := fun hh => h.1 hh.symm
    simp [List.cons_append, splitOnChar, ih h.2, hne]

theorem intercalate_single (sep : Str) (x : Str) :
    List.intercalate sep [x] = x := by
  simp [List.intercalate, List.intersperse]

theorem intercalate_cons₂ (sep : Str) (x y : Str) (rest : List Str) :
    List.intercalate sep (x :: y :: rest) =
      x ++ sep ++ List.intercalate sep (y :: rest) := by
  simp [List.intercalate, List.intersperse]

theorem safeKey_no_dot (k : Str) : '.' ∉ safeKey k := by
  intro hmem
  simp only [safeKey, List.mem_map] at hmem
  obtain ⟨c, _, hc⟩ := hmem
  by_cases h : c = '.'
  · rw [if_pos h] at hc
    exact absurd hc (by decide)
  · rw [if_neg h] at hc
    exact h hc

theorem unsafeKey_safeKey (k : Str) (h : '!' ∉ k) : unsafeKey (safeKey k) = k := by
  induction k with
  | nil => rfl
  | cons c r ih =>
    simp only [List.mem_cons, not_or] at h
    have ihr := ih h.2
    simp only [safeKey, unsafeKey, List.map_cons] at ihr ⊢
    rw [ihr]
    by_cases hc : c = '.'
    · simp [hc]
    · rw [if_neg hc]
      have hne : ¬c = '!' := fun hh => h.1 hh.symm
      simp [hne]

/-- Errors escaping `processInnerLine` are include-resolution errors raised
with both option preconditions and an empty oracle answer. -/
theorem processInnerLine_error_shape (opts : Options) (oracle : IncludeOracle)
    (st : PState) (l : Str) (e : PErr)
    (h : processInnerLine opts oracle st l = .error e) :
    ∃ p, e = .includeResolutionError p ∧ opts.parseIncludes = true ∧
      opts.ignoreIncludeErrors = false ∧ oracle p = [] := by
  unfold processInnerLine at h
  split at h
  · exact absurd h (by simp)
  split at h
  · exact absurd h (by simp)
  split at h
  · exact absurd h (by simp)
  split at h
  · rename_i hcond
    unfold stepInclude at h
    split at h
    · rename_i hraise
      refine ⟨_, by injection h with h2; exact h2.symm, hcond.2, ?_, ?_⟩
      · by_contra hig
        exact hraise.2 (by simpa using hig)
      · simpa using hraise.1
    · exact absurd h (by simp)
  split at h
  · exact absurd h (by simp)
  split at h
  · exact absurd h (by simp)
  exact absurd h (by simp)

/-- Errors escaping `foldSteps` come from one of the steps. -/
theorem foldSteps_error_shape (f : PState → Str → Except PErr PState)
    (st : PState) (ls : List Str) (e : PErr)
    (h : foldSteps f st ls = .error e) :
    ∃ st' l, f st' l = .error e := by
  induction ls generalizing st with
  | nil => exact absurd h (by simp [foldSteps])
  | cons l r ih =>
    unfold foldSteps at h
    split at h
    · exact ih _ h
    · rename_i st2 e2 hf
      exact ⟨st, l, by injection h with h2; exact h2 ▸ hf⟩

/-- Errors escaping `toJSON` are include-resolution errors, raised only
when include parsing is on, errors are not ignored, and some pattern got an
empty oracle answer. -/
theorem toJSON_error_shape (conf : Str) (opts : Options) (oracle : IncludeOracle)
    (e : PErr) (h : toJSON conf opts oracle = .error e) :
    ∃ p, e = .includeResolutionError p ∧ opts.parseIncludes = true ∧
      opts.ignoreIncludeErrors = false ∧ oracle p = [] := by
  unfold toJSON at h
  match hf : foldSteps (processLine opts oracle) {} (splitOnChar '\n' (removeFirst ['\t'] conf)) with
  | .ok st => rw [hf] at h; exact absurd h (by simp [Except.map])
  | .error e2 =>
    rw [hf] at h
    simp only [Except.map] at h
    injection h with h2
    subst h2
    obtain ⟨st', l, hl⟩ := foldSteps_error_shape _ _ _ _ hf
    unfold processLine at hl
    split at hl
    · exact absurd hl (by simp)
    · obtain ⟨st'', l', hl'⟩ := foldSteps_error_shape _ _ _ _ hl
      exact processInnerLine_error_shape _ _ _ _ _ hl'

theorem toJSON_ne_typeError (conf : Str) (opts : Options) (oracle : IncludeOracle) :
    toJSON conf opts oracle ≠ .error .typeError := by
  intro h
  obtain ⟨p, hp, _⟩ := toJSON_error_shape conf opts oracle _ h
  exact absurd hp (by simp)

theorem toJSON_map_ne_typeError (conf : Str) (opts : Options) (oracle : IncludeOracle) :
    (toJSON conf opts oracle).map ParseResult.json ≠ .error .typeError := by
  intro h
  apply toJSON_ne_typeError conf opts oracle
  cases hj : toJSON conf opts oracle with
  | ok es => rw [hj] at h; exact absurd h (by simp [Except.map])
  | error e =>
    rw [hj] at h
    simp only [Except.map, Except.error.injEq] at h
    rw [h]

theorem splitOnChar_intercalate (xs : List Str) (hne : xs ≠ [])
    (h : ∀ x ∈ xs, '.' ∉ x) :
    splitOnChar '.' (List.intercalate ['.'] xs) = xs := by
  induction xs with
  | nil => exact absurd rfl hne
  | cons x rest ih =>
    cases rest with
    | nil =>
      rw [intercalate_single]
      exact splitOnChar_no_sep _ _ (h x (by simp))
    | cons y r2 =>
      rw [intercalate_cons₂, List.append_assoc,
        show (['.'] ++ List.intercalate ['.'] (y :: r2) : Str) =
          '.' :: List.intercalate ['.'] (y :: r2) from rfl,
        splitOnChar_append _ _ _ (h x (by simp)),
        ih (by simp) (fun a ha => h a (by simp [ha]))]

theorem map_unsafeKey_safeKey (ks : List Str) (h : ∀ k ∈ ks, '!' ∉ k) :
    (ks.map safeKey).map unsafeKey = ks := by
  induction ks with
  | nil => rfl
  | cons k r ih =>
    simp only [List.map_cons]
    rw [unsafeKey_safeKey k (h k (by simp)), ih (fun a ha => h a (by simp [ha]))]

/-! ## Claim theorems -/

/-- Claim C1: for every tree `T` that is the result of a parse, re-parsing
the serialization (`toJSON (toConf T)`) yields `T` again.  The code
violates this round trip: parsing `"key x ;"` produces the scalar value
`"x "` with a trailing space (the trailing semicolon is stripped after
trimming), which serializes to the line `key    x;` whose re-parse yields
the scalar `"x"`. -/
theorem toJSON_toConf_roundtrip_failure :
    toJSON "key x ;".data = .ok [("key".data, .str "x ".data)] ∧
    toConf [("key".data, .str "x ".data)] = "key    x;\n".data ∧
    toJSON "key    x;\n".data = .ok [("key".data, .str "x".data)] ∧
    toJSON (toConf [("key".data, .str "x ".data)]) ≠
      .ok [("key".data, .str "x ".data)] :=
  ⟨by decide, by decide, by decide, by decide⟩

/-- Claim C10: `parse` converts a `Buffer` to its UTF-8 text and parses it
as a string, applies `toConf` to objects and `toJSON` to strings, and
throws `TypeError` exactly when the argument is neither an object nor a
string (a number, a boolean, or `undefined`; `null` has `typeof 'object'`
and goes to `toConf`). -/
theorem parse_dispatch_typeError :
    ∀ (opts : Options) (oracle : IncludeOracle),
      (∀ m, parse m opts oracle = .error .typeError ↔
        (∃ n, m = .numVal n) ∨ (∃ b, m = .boolVal b) ∨ m = .undef) ∧
      (∀ s, parse (.buf s) opts oracle = (toJSON s opts oracle).map .json) ∧
      (∀ s, parse (.strVal s) opts oracle = (toJSON s opts oracle).map .json) ∧
      (∀ es, parse (.objVal es) opts oracle = .ok (.conf (toConf es))) := by
  intro opts oracle
  refine ⟨?_, fun s => rfl, fun s => rfl, fun es => rfl⟩
  intro m
  cases m with
  | buf s => simpa [parse] using toJSON_map_ne_typeError s opts oracle
  | strVal s => simpa [parse] using toJSON_map_ne_typeError s opts oracle
  | objVal es => simp [parse]
  | jsNull => simp [parse]
  | numVal n => simp [parse]
  | boolVal b => simp [parse]
  | undef => simp [parse]

/-- Claim C3 counterexample: the claimed bijectivity fails on a key that
contains the escape character `!`: encoding leaves `a!b` unchanged, and
decoding maps it to `a.b`. -/
theorem decodePath_encodePath_failure :
    decodePath (encodePath ["a!b".data]) ≠ ["a!b".data] := by decide

/-- Claim C3 (amended): for every nonempty sequence of keys none of which
contains the escape character `!` (keys may freely contain the separator
`.`), decoding the encoded path returns exactly the original keys. -/
theorem decodePath_encodePath (ks : List Str) (hne : ks ≠ [])
    (h : ∀ k ∈ ks, '!' ∉ k) : decodePath (encodePath ks) = ks := by
  unfold decodePath encodePath
  rw [splitOnChar_intercalate (ks.map safeKey) (by simpa using hne)
    (by
      intro x hx
      simp only [List.mem_map] at hx
      obtain ⟨k, _, hk⟩ := hx
      exact hk ▸ safeKey_no_dot k)]
  exact map_unsafeKey_safeKey ks h

/-- Witness for the amended claim C3 at a concrete key sequence containing
a literal separator. -/
theorem decodePath_encodePath_witness :
    (["a.b".data, "c".data] : List Str) ≠ [] ∧
      (∀ k ∈ (["a.b".data, "c".data] : List Str), '!' ∉ k) ∧
      decodePath (encodePath ["a.b".data, "c".data]) = ["a.b".data, "c".data] :=
  ⟨by decide, by decide, decodePath_encodePath _ (by decide) (by decide)⟩

theorem lookupEntry_setEntry_self (k : Str) (v : JsValue) :
    ∀ es, lookupEntry k (setEntry k v es) = some v
  | [] => by simp [setEntry, lookupEntry]
  | (k', v') :: r => by
    by_cases h : k' = k
    · simp [setEntry, h, lookupEntry]
    · simp [setEntry, h, lookupEntry, lookupEntry_setEntry_self k v r]

theorem setEntry_self (k : Str) (c : JsValue) :
    ∀ es, lookupEntry k es = some c → setEntry k c es = es
  | [], h => by simp [lookupEntry] at h
  | (k', v') :: r, h => by
    by_cases hk : k' = k
    · simp only [lookupEntry, if_pos hk] at h
      injection h with h2
      subst hk
      simp [setEntry, h2]
    · simp only [lookupEntry, if_neg hk] at h
      simp [setEntry, hk, setEntry_self k c r h]

theorem listGet?_set_self : ∀ (l : List JsValue) (i : Nat) (v : JsValue),
    i < l.length → (l.set i v)[i]? = some v
  | _ :: _, 0, _, _ => by simp [List.set]
  | a :: r, i + 1, v, h => by
    simp only [List.set, List.getElem?_cons_succ]
    exact listGet?_set_self r i v (by simpa using h)
  | [], _, _, h => absurd h (by simp)

theorem listSet_get?_self : ∀ (l : List JsValue) (i : Nat) (c : JsValue),
    l[i]? = some c → l.set i c = l
  | a :: r, 0, c, h => by
    simp only [List.getElem?_cons_zero] at h
    injection h with h
    simp [List.set, ← h]
  | a :: r, i + 1, c, h => by
    simp only [List.set]
    rw [listSet_get?_self r i c (by simpa using h)]
  | [], i, c, h => by simp at h

theorem listGet?_lt : ∀ (l : List JsValue) (i : Nat) (c : JsValue),
    l[i]? = some c → i < l.length
  | a :: r, 0, c, _ => by simp
  | a :: r, i + 1, c, h => by
    have := listGet?_lt r i c (by simpa using h)
    simp only [List.length_cons]
    omega
  | [], i, c, h => by simp at h

/-- One unfolding step of the `resolve` walk. -/
theorem resolveSegs_cons (t : JsValue) (s : Str) (rest : List Str) :
    resolveSegs t (s :: rest) =
      match childAt t s with
      | some c => resolveSegs c rest
      | none => none := rfl

/-- Full characterization of the `resolveSet` walk: the returned flag is
exactly `walkOk`; a failed walk leaves the tree unchanged; and whenever the
final container is an object, the written value can be read back. -/
theorem resolveSetSegs_spec : ∀ (t : JsValue) (segs : List Str) (v : JsValue),
    ((resolveSetSegs t segs v).1 = walkOk t segs) ∧
    (walkOk t segs = false → (resolveSetSegs t segs v).2 = t) ∧
    (finalIsObj t segs = true →
      resolveSegs (resolveSetSegs t segs v).2 segs = some v)
  | t, [], v => by
    cases t <;> simp [resolveSetSegs, walkOk, finalIsObj]
  | .str s, q :: rest, v => by
    simp [resolveSetSegs, walkOk, finalIsObj]
  | .obj es, [q], v => by
    refine ⟨by simp [resolveSetSegs, walkOk], by simp [walkOk], fun _ => ?_⟩
    simp [resolveSetSegs, resolveSegs, childAt, lookupEntry_setEntry_self]
  | .arr l, [q], v => by
    refine ⟨?_, by simp [walkOk], by simp [finalIsObj]⟩
    simp only [resolveSetSegs, walkOk]
    cases strToIndex? (unsafeKey q) with
    | none => rfl
    | some i =>
      by_cases h1 : i < l.length
      · simp [h1]
      · by_cases h2 : i = l.length <;> simp [h1, h2]
  | .obj es, q :: q2 :: rest, v => by
    cases hc : lookupEntry (unsafeKey q) es with
    | none => simp [resolveSetSegs, walkOk, finalIsObj, resolveSegs, childAt, hc]
    | some c =>
      obtain ⟨ih1, ih2, ih3⟩ := resolveSetSegs_spec c (q2 :: rest) v
      refine ⟨?_, ?_, ?_⟩
      · simp [resolveSetSegs, walkOk, hc, ih1]
      · intro hw
        simp only [walkOk, hc] at hw
        simp [resolveSetSegs, hc, ih2 hw, setEntry_self _ _ _ hc]
      · intro hf
        simp only [finalIsObj, hc] at hf
        have hchild : childAt
            (.obj (setEntry (unsafeKey q) (resolveSetSegs c (q2 :: rest) v).2 es)) q =
            some (resolveSetSegs c (q2 :: rest) v).2 := by
          simp [childAt, lookupEntry_setEntry_self]
        simp only [resolveSetSegs, hc]
        rw [resolveSegs_cons, hchild]
        exact ih3 hf
  | .arr l, q :: q2 :: rest, v => by
    cases hi : strToIndex? (unsafeKey q) with
    | none => simp [resolveSetSegs, walkOk, finalIsObj, resolveSegs, childAt, hi]
    | some i =>
      cases hg : l[i]? with
      | none => simp [resolveSetSegs, walkOk, finalIsObj, resolveSegs, childAt, hi, hg]
      | some c =>
        obtain ⟨ih1, ih2, ih3⟩ := resolveSetSegs_spec c (q2 :: rest) v
        refine ⟨?_, ?_, ?_⟩
        · simp [resolveSetSegs, walkOk, hi, hg, ih1]
        · intro hw
          simp only [walkOk, hi, hg] at hw
          simp [resolveSetSegs, hi, hg, ih2 hw, listSet_get?_self l i c hg]
        · intro hf
          simp only [finalIsObj, hi, hg] at hf
          have hchild : childAt
              (.arr (l.set i (resolveSetSegs c (q2 :: rest) v).2)) q =
              some (resolveSetSegs c (q2 :: rest) v).2 := by
            simp [childAt, hi, listGet?_set_self _ _ _ (listGet?_lt l i c hg)]
          simp only [resolveSetSegs, hi, hg]
          rw [resolveSegs_cons, hchild]
          exact ih3 hf

/-- `resolveSetSegs` started on an object always returns an object. -/
theorem resolveSetSegs_obj_shape (es : Entries) (segs : List Str) (v : JsValue) :
    ∃ es', (resolveSetSegs (.obj es) segs v).2 = .obj es' := by
  match segs with
  | [] => exact ⟨es, rfl⟩
  | [q] => exact ⟨setEntry (unsafeKey q) v es, rfl⟩
  | q :: q2 :: rest =>
    cases hc : lookupEntry (unsafeKey q) es with
    | none => exact ⟨es, by simp [resolveSetSegs, hc]⟩
    | some c =>
      exact ⟨setEntry (unsafeKey q) (resolveSetSegs c (q2 :: rest) v).2 es,
        by simp [resolveSetSegs, hc]⟩

/-- The `resolveSet` wrapper in terms of the segment walk. -/
theorem resolveSet_eq (obj : Entries) (path : Str) (v : JsValue) :
    ∃ es', (resolveSetSegs (.obj obj) (splitOnChar '.' path) v).2 = .obj es' ∧
      resolveSet obj path v =
        ((resolveSetSegs (.obj obj) (splitOnChar '.' path) v).1, es') := by
  obtain ⟨es', hes'⟩ := resolveSetSegs_obj_shape obj (splitOnChar '.' path) v
  refine ⟨es', hes', ?_⟩
  unfold resolveSet
  have hp : resolveSetSegs (.obj obj) (splitOnChar '.' path) v =
      ((resolveSetSegs (.obj obj) (splitOnChar '.' path) v).1, .obj es') := by
    rw [← hes']
  rw [hp]

/-- Claim C4 counterexample: `resolveSet` on an empty tree with the
two-segment path `a.b` returns `false` and creates nothing, where the claim
requires it to create the intermediate block and return `true`. -/
theorem resolveSet_no_create_failure :
    resolveSet [] "a.b".data (.str "v".data) = (false, []) ∧
    resolve ((resolveSet [] "a.b".data (.str "v".data)).2) "a.b".data = none :=
  ⟨by decide, by decide⟩

/-- Claim C4 (amended): `resolveSet` walks the path segment by segment; it
returns `true` exactly when every segment of the walk lands in an existing
object-like container (`walkOk`); it creates nothing on failure (the tree
is returned unchanged); and when the walk ends in an object, the stored
value is found again by `resolve` at the same path.  (`resolve` itself is a
pure function returning the found value or `none`.) -/
theorem resolveSet_walk_spec :
    ∀ (obj : Entries) (path : Str) (v : JsValue),
      ((resolveSet obj path v).1 = walkOk (.obj obj) (splitOnChar '.' path)) ∧
      (walkOk (.obj obj) (splitOnChar '.' path) = false →
        (resolveSet obj path v).2 = obj) ∧
      (finalIsObj (.obj obj) (splitOnChar '.' path) = true →
        resolve (resolveSet obj path v).2 path = some v) := by
  intro obj path v
  obtain ⟨h1, h2, h3⟩ := resolveSetSegs_spec (.obj obj) (splitOnChar '.' path) v
  obtain ⟨es', hes', heq⟩ := resolveSet_eq obj path v
  refine ⟨?_, ?_, ?_⟩
  · rw [heq]
    exact h1
  · intro hw
    rw [heq]
    have h2' := h2 hw
    rw [hes'] at h2'
    simpa using h2'
  · intro hf
    have h3' := h3 hf
    rw [hes'] at h3'
    rw [heq]
    exact h3'

/-- Witness for the amended claim C4: a successful two-segment write into
an existing nested block is found again by `resolve`. -/
theorem resolveSet_walk_spec_witness :
    finalIsObj (.obj [("a".data, .obj [])]) (splitOnChar '.' "a.b".data) = true ∧
    resolve (resolveSet [("a".data, .obj [])] "a.b".data (.str "x".data)).2
      "a.b".data = some (.str "x".data) :=
  ⟨by decide,
    (resolveSet_walk_spec [("a".data, .obj [])] "a.b".data (.str "x".data)).2.2
      (by decide)⟩

/-- `resolve` on a separator-free key is a root-level property lookup. -/
theorem resolve_single (json : Entries) (k : Str) (h : '.' ∉ k) :
    resolve json k = lookupEntry (unsafeKey k) json := by
  unfold resolve
  rw [splitOnChar_no_sep '.' k h, resolveSegs_cons]
  cases hc : lookupEntry (unsafeKey k) json <;> simp [childAt, hc, resolveSegs]

/-- `resolveSet` on a separator-free key is a root-level property write,
and always succeeds. -/
theorem resolveSet_single (json : Entries) (k : Str) (v : JsValue) (h : '.' ∉ k) :
    resolveSet json k v = (true, setEntry (unsafeKey k) v json) := by
  unfold resolveSet
  rw [splitOnChar_no_sep '.' k h]
  rfl

/-- Non-array values contribute themselves as a single merged element. -/
theorem mergeBase_non_arr (v : JsValue) (h : isArrVal v = false) :
    mergeBase v = [v] := by
  cases v <;> simp_all [isArrVal, mergeBase]

/-- Claim C2 counterexample: the key `ip_hash` occurring twice with scalar
values does not produce a two-element collection, because the first value
is the empty string, which is JS-falsy: the second occurrence overwrites
it, and `resolveAppendSet` reports `false` (no promotion) although the
path already held a non-collection value. -/
theorem resolveAppendSet_promotion_failure :
    toJSON "ip_hash;\nip_hash;".data = .ok [("ip_hash".data, .str [])] ∧
    resolveAppendSet [("ip_hash".data, .str [])] "ip_hash".data (.str []) =
      (false, [("ip_hash".data, .str [])]) :=
  ⟨by decide, by decide⟩

/-- Claim C2 (amended): when a path already holds a *truthy* non-collection
value, `resolveAppendSet` replaces it with the two-element collection
`[existing, new]` and reports promotion; when it already holds a
collection, the new value is appended at the end, keeping encounter order;
parsing a (non-empty-valued) scalar key twice therefore yields the
two-element collection of the values in first-to-second order, and a third
occurrence yields the three-element collection.  (For a JS-falsy existing
value -- the empty string -- the code overwrites instead of promoting.) -/
theorem resolveAppendSet_promotion :
    (∀ (json : Entries) (k : Str) (v w : JsValue), '.' ∉ k →
      lookupEntry (unsafeKey k) json = some v → truthy v = true →
      isArrVal v = false → isArrVal w = false →
      resolveAppendSet json k w =
        (true, setEntry (unsafeKey k) (.arr [v, w]) json)) ∧
    (∀ (json : Entries) (k : Str) (l : List JsValue) (w : JsValue), '.' ∉ k →
      lookupEntry (unsafeKey k) json = some (.arr l) → isArrVal w = false →
      resolveAppendSet json k w =
        (true, setEntry (unsafeKey k) (.arr (l ++ [w])) json)) ∧
    toJSON "s a;\ns b;".data =
      .ok [("s".data, .arr [.str "a".data, .str "b".data])] ∧
    toJSON "s a;\ns b;\ns c;".data =
      .ok [("s".data, .arr [.str "a".data, .str "b".data, .str "c".data])] := by
  refine ⟨?_, ?_, by decide, by decide⟩
  · intro json k v w hk hlk htr hva hwa
    unfold resolveAppendSet
    rw [resolve_single json k hk, hlk]
    simp only [htr, if_true]
    rw [mergeBase_non_arr v hva, mergeBase_non_arr w hwa,
      resolveSet_single json k _ hk]
    rfl
  · intro json k l w hk hlk hwa
    unfold resolveAppendSet
    rw [resolve_single json k hk, hlk]
    simp only [truthy, if_true]
    rw [mergeBase_non_arr w hwa, resolveSet_single json k _ hk]
    rfl

/-- Witness for the amended claim C2: promoting a scalar to a two-element
collection and appending a third value. -/
theorem resolveAppendSet_promotion_witness :
    resolveAppendSet [("k".data, .str "1".data)] "k".data (.str "2".data) =
      (true, setEntry (unsafeKey "k".data)
        (.arr [.str "1".data, .str "2".data]) [("k".data, .str "1".data)]) ∧
    resolveAppendSet [("k".data, .arr [.str "1".data, .str "2".data])] "k".data
      (.str "3".data) =
      (true, setEntry (unsafeKey "k".data)
        (.arr ([.str "1".data, .str "2".data] ++ [.str "3".data]))
        [("k".data, .arr [.str "1".data, .str "2".data])]) :=
  ⟨resolveAppendSet_promotion.1 [("k".data, .str "1".data)] "k".data
      (.str "1".data) (.str "2".data) (by decide) (by decide) (by decide)
      (by decide) (by decide),
    resolveAppendSet_promotion.2.1 [("k".data, .arr [.str "1".data, .str "2".data])]
      "k".data [.str "1".data, .str "2".data] (.str "3".data) (by decide)
      (by decide) (by decide)⟩

theorem foldl_max_eq (es : Entries) :
    ∀ a : Nat, es.foldl (fun m kv => max m kv.1.length) a =
      max a ((es.map (fun kv => kv.1.length)).foldr max 0) := by
  induction es with
  | nil => intro a; simp
  | cons kv r ih =>
    intro a
    simp only [List.foldl_cons, List.map_cons, List.foldr_cons]
    rw [ih (max a kv.1.length), Nat.max_assoc]

theorem confEntries_scalar (es : Entries) (longest depth : Nat)
    (h : ∀ kv ∈ es, isStrVal kv.2 = true) :
    confEntries es longest depth =
      (es.map (fun kv => scalarLine longest depth kv.1 kv.2)).flatten := by
  induction es with
  | nil => rfl
  | cons kv r ih =>
    obtain ⟨k, v⟩ := kv
    have hv := h (k, v) (by simp)
    cases v with
    | str s =>
      simp only [List.map_cons, List.flatten_cons]
      rw [show confEntries ((k, .str s) :: r) longest depth =
        confEntry k (.str s) longest depth ++ confEntries r longest depth from rfl]
      rw [ih (fun kv hkv => h kv (by simp [hkv]))]
      rfl
    | arr l => simp [isStrVal] at hv
    | obj es2 => simp [isStrVal] at hv

/-- Claim C7 counterexample: a scalar with the empty value (from a
value-less directive such as `ip_hash;`) is emitted as `ip_hash;`, not as
the claimed `key + padding + value + ';'` (the source trims the padded
text, removing the padding when the value is empty). -/
theorem toConf_scalar_line_failure :
    toConf [("ip_hash".data, .str [])] = "ip_hash;\n".data ∧
    toConf [("ip_hash".data, .str [])] ≠ "ip_hash    ;\n".data :=
  ⟨by decide, by decide⟩

/-- Claim C7 (amended): at each block the common column is computed from
the longest key (with a floor of 1) plus 4; every scalar child of a block
of scalars is emitted as `indent ++ trim(key ++ spaces(pad - len key) ++
value) ++ ";\n"` -- the concatenation is trimmed, so an empty value yields
`key;` -- with 4 spaces of indentation per depth; serializing the root
`listen -> 80` gives exactly one `;`-terminated line. -/
theorem toConf_scalar_lines :
    (∀ es : Entries, longestKeyLen es =
      max 1 ((es.map (fun kv => kv.1.length)).foldr max 0)) ∧
    (∀ (es : Entries) (longest depth : Nat), (∀ kv ∈ es, isStrVal kv.2 = true) →
      confEntries es longest depth =
        (es.map (fun kv => scalarLine longest depth kv.1 kv.2)).flatten) ∧
    toConf [("listen".data, .str "80".data)] = "listen    80;\n".data :=
  ⟨fun es => foldl_max_eq es 1, confEntries_scalar, by decide⟩

/-- Witness for the amended claim C7 on a two-entry block of scalars. -/
theorem toConf_scalar_lines_witness :
    confEntries [("a".data, .str "1".data), ("bb".data, .str "2".data)] 2 0 =
      ([("a".data, JsValue.str "1".data), ("bb".data, .str "2".data)].map
        (fun kv => scalarLine 2 0 kv.1 kv.2)).flatten :=
  toConf_scalar_lines.2.1 _ 2 0 (by decide)

theorem braceOpenSplitAux_no_brace (s : Str) (h : lbrace ∉ s) :
    ∀ pend, braceOpenSplitAux pend s = pend.reverse ++ s := by
  induction s with
  | nil => intro pend; simp [braceOpenSplitAux]
  | cons c r ih =>
    intro pend
    simp only [List.mem_cons, not_or] at h
    unfold braceOpenSplitAux
    by_cases hw : isWs c = true
    · rw [if_pos hw, ih h.2 (c :: pend)]
      simp
    · rw [if_neg hw, if_neg (by rintro ⟨hc, -⟩; exact h.1 hc.symm), ih h.2 []]
      simp

theorem braceCloseSplitAux_no_brace (s : Str) (h : rbrace ∉ s) :
    braceCloseSplitAux none s = s ∧
      ∀ pend, braceCloseSplitAux (some pend) s = ';' :: (pend.reverse ++ s) := by
  induction s with
  | nil => exact ⟨rfl, fun pend => by simp [braceCloseSplitAux]⟩
  | cons c r ih =>
    simp only [List.mem_cons, not_or] at h
    obtain ⟨ih1, ih2⟩ := ih h.2
    have hcr : ¬c = rbrace := fun hc => h.1 hc.symm
    constructor
    · unfold braceCloseSplitAux
      by_cases hs : c = ';'
      · rw [if_pos hs, ih2 []]
        simp [hs]
      · rw [if_neg hs, ih1]
    · intro pend
      unfold braceCloseSplitAux
      by_cases hw : isWs c = true
      · rw [if_pos hw, ih2 (c :: pend)]
        simp
      · rw [if_neg hw, if_neg hcr]
        by_cases hs : c = ';'
        · rw [if_pos hs, ih2 []]
          simp [hs]
        · rw [if_neg hs, ih1]

theorem dropWhile_all_append (p : Char → Bool) (l m : Str)
    (h : ∀ c ∈ l, p c = true) :
    (l ++ m).dropWhile p = m.dropWhile p := by
  induction l with
  | nil => rfl
  | cons c r ih =>
    simp only [List.cons_append, List.dropWhile_cons, h c (by simp), if_true]
    exact ih (fun c hc => h c (by simp [hc]))

theorem trailingSemiSplit_trailing (s ws : Str) (hws : ∀ c ∈ ws, isWs c = true) :
    trailingSemiSplit (s ++ ';' :: ws) = s ++ ';' :: ['\n'] := by
  unfold trailingSemiSplit
  rw [List.reverse_append, List.reverse_cons, List.append_assoc,
    List.singleton_append,
    dropWhile_all_append isWs ws.reverse (';' :: s.reverse)
      (fun c hc => hws c (by simpa using hc)),
    List.dropWhile_cons, if_neg (by decide : ¬isWs ';' = true)]
  simp

/-- Claim C8 counterexample: two statements packed on one physical line
without block boundaries are *not* split at the mid-line terminator: the
whole line parses as the single directive `a` with value `x; b y`, not as
the two directives that parsing the statements on separate lines yields. -/
theorem statement_split_failure :
    toJSON "a x; b y;".data = .ok [("a".data, .str "x; b y".data)] ∧
    toJSON "a x;\nb y;".data =
      .ok [("a".data, .str "x".data), ("b".data, .str "y".data)] ∧
    toJSON "a x; b y;".data ≠ toJSON "a x;\nb y;".data :=
  ⟨by decide, by decide, by decide⟩

/-- Claim C8 (amended): the per-line rewrite inserts breaks only around a
block-opening brace preceded by whitespace, around a block-closing brace
preceded by a terminator, and after a terminator at the end of the physical
line.  A line without braces is left intact by the two brace passes (so a
mid-line `;` never splits -- the repo's own test keeps
`add_header ... "max-age=0; includeSubDomains" always;` whole), a trailing
`;` (possibly followed by whitespace) gets a break after it, and a line
that packs several *blocks* parses the same as the statements on separate
lines (shown on the source's own example). -/
theorem line_rewrite_rules :
    (∀ s : Str, lbrace ∉ s → braceOpenSplit s = s) ∧
    (∀ s : Str, rbrace ∉ s → braceCloseSplit s = s) ∧
    (∀ (s ws : Str), (∀ c ∈ ws, isWs c = true) →
      trailingSemiSplit (s ++ ';' :: ws) = s ++ ';' :: ['\n']) ∧
    (∀ a : Str, '\n' ∉ a → splitOnChar '\n' (a ++ ['\n']) = [a, []]) ∧
    toJSON ("upstream x \x7bserver A;\x7d upstream y \x7bserver B;\x7d").data =
      toJSON ("upstream x \x7b\nserver A;\n\x7d\nupstream y \x7b\nserver B;\n\x7d").data ∧
    toJSON "a x; b y;".data = .ok [("a".data, .str "x; b y".data)] := by
  refine ⟨?_, ?_, trailingSemiSplit_trailing, ?_, by decide, by decide⟩
  · intro s h
    exact braceOpenSplitAux_no_brace s h []
  · intro s h
    exact (braceCloseSplitAux_no_brace s h).1
  · intro a h
    rw [splitOnChar_append '\n' a [] h]
    rfl

/-- Witness for the amended claim C8 on concrete lines. -/
theorem line_rewrite_rules_witness :
    braceOpenSplit "ab".data = "ab".data ∧
    braceCloseSplit "a; b".data = "a; b".data ∧
    trailingSemiSplit ("a x" ++ ";" ++ " ").data = ("a x" ++ ";" ++ "\n").data ∧
    splitOnChar '\n' ("ab".data ++ ['\n']) = ["ab".data, []] :=
  ⟨line_rewrite_rules.1 "ab".data (by decide),
    line_rewrite_rules.2.1 "a; b".data (by decide),
    line_rewrite_rules.2.2.1 "a x".data [' '] (by decide),
    line_rewrite_rules.2.2.2.1 "ab".data (by decide)⟩

/-- A string ending in one character does not end in a different one. -/
theorem endsWithChar_ne (a b : Char) (s : Str) (h : endsWithChar a s = true)
    (hne : b ≠ a) : endsWithChar b s = false := by
  unfold endsWithChar at *
  cases hl : s.getLast? with
  | none => simp [hl] at h
  | some c =>
    rw [hl] at h
    simp only [decide_eq_true_eq] at h
    subst h
    simp [hne]

/-- Claim C5 counterexample: the body of a `by_lua_block` block is stored
under the key `_lua`, not `_raw`, and a comment marker inside the body is
stripped rather than kept literally (`a # b` is captured as `a`). -/
theorem lua_block_raw_key_failure :
    toJSON ("x_by_lua_block \x7b\na # b\n\x7d").data =
      .ok [("x_by_lua_block".data,
        .obj [("_lua".data, .arr [.str "a".data])])] ∧
    lookupEntry "_raw".data [("_lua".data, JsValue.arr [.str "a".data])] = none ∧
    JsValue.arr [.str "a".data] ≠ .arr [.str "a # b".data] :=
  ⟨by decide, by decide, by decide⟩

/-- Claim C5 (amended): inside a `by_lua_block` block, every inner line
(after the per-physical-line preprocessing: trimming, blank and
comment-line skipping, trailing-comment stripping, and the brace/terminator
line splitting) that does not end in a closing brace is appended in order
to the lua buffer with the tree untouched; a line ending in a closing brace
closes the block, storing the buffered lines as an array of strings under
the reserved key `_lua` in the enclosing block -- `_lua` is the only key
the buffer is ever stored under -- and capture mode ends.  The concrete
parse shows the captured lines in order under `_lua`. -/
theorem lua_block_capture :
    (∀ (opts : Options) (oracle : IncludeOracle) (st : PState) (l : Str),
      st.isInLuaBlock = true → trim l ≠ [] →
      endsWithChar rbrace (trim l) = false →
      processInnerLine opts oracle st l =
        .ok { st with luaBlockValue := st.luaBlockValue ++ [trim l] }) ∧
    (∀ (opts : Options) (oracle : IncludeOracle) (st : PState) (l : Str),
      st.isInLuaBlock = true → st.chunkedLine = none → trim l ≠ [] →
      endsWithChar rbrace (trim l) = true →
      startsWithStr "include".data (trim l) = false →
      processInnerLine opts oracle st l = .ok (stepClose st) ∧
      (stepClose st).json = (appendValue st.json "_lua".data
        (.arr (st.luaBlockValue.map .str)) st.parent).2 ∧
      (stepClose st).isInLuaBlock = false ∧
      (stepClose st).luaBlockValue = []) ∧
    toJSON ("x_by_lua_block \x7b\nfoo\nbar\n\x7d").data =
      .ok [("x_by_lua_block".data,
        .obj [("_lua".data, .arr [.str "foo".data, .str "bar".data])])] := by
  refine ⟨?_, ?_, by decide⟩
  · intro opts oracle st l h1 h2 h3
    unfold processInnerLine
    rw [if_neg h2, if_pos ⟨h1, by simp [h3]⟩]
  · intro opts oracle st l h1 hch h2 h3 h4
    have hlb : endsWithChar lbrace (trim l) = false :=
      endsWithChar_ne rbrace lbrace (trim l) h3 (by decide)
    have hsc : endsWithChar ';' (trim l) = false :=
      endsWithChar_ne rbrace ';' (trim l) h3 (by decide)
    refine ⟨?_,
      by simp only [stepClose, stepCloseLua, stepClosePop]; rw [if_pos h1]; split <;> rfl,
      by simp only [stepClose, stepCloseLua, stepClosePop]; rw [if_pos h1]; split <;> rfl,
      by simp only [stepClose, stepCloseLua, stepClosePop]; rw [if_pos h1]; split <;> rfl⟩
    unfold processInnerLine
    rw [if_neg h2,
      if_neg (by rintro ⟨-, hx⟩; exact hx (by simp [h3]))]
    rw [show joinChunk st.chunkedLine (trim l) = trim l from by rw [hch]; rfl]
    rw [if_neg (by simp [hlb]), if_neg (by rintro ⟨hx, -⟩; simp [h4] at hx),
      if_neg (by simp [hsc]), if_pos (by simp [h3])]

/-- Witness for the amended claim C5: appending one body line, then
closing the block stores the buffer under `_lua`. -/
theorem lua_block_capture_witness :
    processInnerLine {} (fun _ => [])
      (PState.mk [("b".data, .obj [])] "b".data none 0 true []) "foo".data =
      .ok (PState.mk [("b".data, .obj [])] "b".data none 0 true ["foo".data]) ∧
    (stepClose
        (PState.mk [("b".data, .obj [])] "b".data none 0 true ["foo".data])).json =
      (appendValue [("b".data, .obj [])] "_lua".data
        (.arr [.str "foo".data]) "b".data).2 :=
  ⟨lua_block_capture.1 {} (fun _ => []) _ "foo".data rfl (by decide) (by decide),
    (lua_block_capture.2.1 {} (fun _ => []) _ "\x7d".data rfl rfl (by decide)
      (by decide) (by decide)).2.1⟩

/-- Claim C6: with include parsing enabled and errors not ignored, an
include line whose pattern resolves to zero configurations raises
`IncludeResolutionError`; with `ignoreIncludeErrors` set, the same line is
skipped with the tree unchanged; and this zero-match situation is the only
source of errors: whenever include parsing is off, or errors are ignored,
or every pattern resolves to at least one configuration, `toJSON`
succeeds. -/
theorem include_zero_match_policy :
    (∀ (opts : Options) (oracle : IncludeOracle) (st : PState) (l : Str),
      opts.parseIncludes = true → opts.ignoreIncludeErrors = false →
      st.isInLuaBlock = false → st.chunkedLine = none → trim l ≠ [] →
      endsWithChar lbrace (trim l) = false →
      startsWithStr "include".data (trim l) = true →
      oracle (includePatternOf (trim l)) = [] →
      processInnerLine opts oracle st l =
        .error (.includeResolutionError (includePatternOf (trim l)))) ∧
    (∀ (opts : Options) (oracle : IncludeOracle) (st : PState) (l : Str),
      opts.parseIncludes = true → opts.ignoreIncludeErrors = true →
      st.isInLuaBlock = false → st.chunkedLine = none → trim l ≠ [] →
      endsWithChar lbrace (trim l) = false →
      startsWithStr "include".data (trim l) = true →
      oracle (includePatternOf (trim l)) = [] →
      processInnerLine opts oracle st l = .ok { st with chunkedLine := none }) ∧
    (∀ (conf : Str) (opts : Options) (oracle : IncludeOracle),
      (opts.parseIncludes = false ∨ opts.ignoreIncludeErrors = true ∨
        ∀ p, oracle p ≠ []) →
      ∃ es, toJSON conf opts oracle = .ok es) := by
  refine ⟨?_, ?_, ?_⟩
  · intro opts oracle st l hpi hig hlua hch h2 hlb hst hor
    unfold processInnerLine
    rw [if_neg h2, if_neg (by rintro ⟨hx, -⟩; rw [hlua] at hx; cases hx)]
    rw [show joinChunk st.chunkedLine (trim l) = trim l from by rw [hch]; rfl]
    rw [if_neg (by simp [hlb]), if_pos ⟨hst, hpi⟩]
    unfold stepInclude
    rw [if_pos ⟨by simp [hor], by simp [hig]⟩]
  · intro opts oracle st l hpi hig hlua hch h2 hlb hst hor
    unfold processInnerLine
    rw [if_neg h2, if_neg (by rintro ⟨hx, -⟩; rw [hlua] at hx; cases hx)]
    rw [show joinChunk st.chunkedLine (trim l) = trim l from by rw [hch]; rfl]
    rw [if_neg (by simp [hlb]), if_pos ⟨hst, hpi⟩]
    unfold stepInclude
    rw [if_neg (by rintro ⟨-, hx⟩; rw [hig] at hx; exact hx rfl)]
    rw [hor]
    rfl
  · intro conf opts oracle hnr
    have hok : ∀ st l, ∃ st', processInnerLine opts oracle st l = .ok st' := by
      intro st l
      cases hres : processInnerLine opts oracle st l with
      | ok st' => exact ⟨st', rfl⟩
      | error e =>
        obtain ⟨p, -, hpi, hig, hor⟩ := processInnerLine_error_shape _ _ _ _ _ hres
        rcases hnr with h | h | h
        · rw [h] at hpi; cases hpi
        · rw [h] at hig; cases hig
        · exact absurd hor (h p)
    have hfold : ∀ (ls : List Str) (st : PState), ∃ st',
        foldSteps (processInnerLine opts oracle) st ls = .ok st' := by
      intro ls
      induction ls with
      | nil => exact fun st => ⟨st, rfl⟩
      | cons l r ih =>
        intro st
        obtain ⟨st1, h1⟩ := hok st l
        obtain ⟨st2, h2⟩ := ih st1
        exact ⟨st2, by simp [foldSteps, h1, h2]⟩
    have hline : ∀ (ls : List Str) (st : PState), ∃ st',
        foldSteps (processLine opts oracle) st ls = .ok st' := by
      intro ls
      induction ls with
      | nil => exact fun st => ⟨st, rfl⟩
      | cons l r ih =>
        intro st
        have h1 : ∃ st1, processLine opts oracle st l = .ok st1 := by
          unfold processLine
          split
          · exact ⟨st, rfl⟩
          · exact hfold _ st
        obtain ⟨st1, h1⟩ := h1
        obtain ⟨st2, h2⟩ := ih st1
        exact ⟨st2, by simp [foldSteps, h1, h2]⟩
    obtain ⟨st', hst'⟩ := hline (splitOnChar '\n' (removeFirst ['\t'] conf)) {}
    exact ⟨st'.json, by unfold toJSON; rw [hst']; rfl⟩

/-- Witness for claim C6: a concrete include line raising and a concrete
skip, plus a successful parse under an oracle that never returns zero. -/
theorem include_zero_match_policy_witness :
    processInnerLine ⟨true, false⟩ (fun _ => []) {} "include missing.conf;".data =
      .error (.includeResolutionError
        (includePatternOf (trim "include missing.conf;".data))) ∧
    processInnerLine ⟨true, true⟩ (fun _ => []) {} "include missing.conf;".data =
      .ok { ({} : PState) with chunkedLine := none } ∧
    (∃ es, toJSON "include a.conf;".data ⟨true, false⟩
      (fun _ => [[("x".data, JsValue.str "1".data)]]) = .ok es) :=
  ⟨include_zero_match_policy.1 ⟨true, false⟩ (fun _ => []) {} _ rfl rfl rfl rfl
      (by decide) (by decide) (by decide) rfl,
    include_zero_match_policy.2.1 ⟨true, true⟩ (fun _ => []) {} _ rfl rfl rfl rfl
      (by decide) (by decide) (by decide) rfl,
    include_zero_match_policy.2.2 "include a.conf;".data ⟨true, false⟩
      (fun _ => [[("x".data, JsValue.str "1".data)]])
      (Or.inr (Or.inr (fun p => by simp)))⟩

/-! ### Lemmas for the collection-size invariant (claim C9) -/

theorem splitOnChar_append_general (c : Char) (a b : Str) :
    splitOnChar c (a ++ c :: b) = splitOnChar c a ++ splitOnChar c b := by
  induction a with
  | nil =>
    simp only [List.nil_append]
    rw [show splitOnChar c (c :: b) =
      (match splitOnChar c b with
        | [] => [[]]
        | h :: t => if c = c then [] :: h :: t else (c :: h) :: t) from rfl]
    cases hb : splitOnChar c b with
    | nil => exact absurd hb (splitOnChar_ne_nil c b)
    | cons h t => simp [splitOnChar]
  | cons x r ih =>
    rw [List.cons_append]
    rw [show splitOnChar c (x :: (r ++ c :: b)) =
      (match splitOnChar c (r ++ c :: b) with
        | [] => [[]]
        | h :: t => if x = c then [] :: h :: t else (x :: h) :: t) from rfl, ih]
    rw [show splitOnChar c (x :: r) =
      (match splitOnChar c r with
        | [] => [[]]
        | h :: t => if x = c then [] :: h :: t else (x :: h) :: t) from rfl]
    cases hr : splitOnChar c r with
    | nil => exact absurd hr (splitOnChar_ne_nil c r)
    | cons h t =>
      simp only [List.cons_append]
      by_cases hx : x = c <;> simp [hx]

theorem getLastD_append_of_ne_nil (xs ys : List Str) (h : ys ≠ []) :
    (xs ++ ys).getLastD [] = ys.getLastD [] := by
  rw [List.getLastD_eq_getLast?, List.getLastD_eq_getLast?,
    List.getLast?_append_of_ne_nil xs h]

theorem goodEntries_lookup (k : Str) :
    ∀ es, goodEntries es = true → lookupEntry k es = some v →
      goodVal v = true ∧ entryCond k v = true := by
  intro es
  induction es with
  | nil => intro _ h; simp [lookupEntry] at h
  | cons kv r ih =>
    obtain ⟨k', v'⟩ := kv
    intro hg hl
    rw [show goodEntries ((k', v') :: r) =
      (goodVal v' && entryCond k' v' && goodEntries r) from rfl] at hg
    simp only [Bool.and_eq_true] at hg
    simp only [lookupEntry] at hl
    by_cases hk : k' = k
    · rw [if_pos hk] at hl
      injection hl with hl
      subst hl
      exact ⟨hg.1.1, hk ▸ hg.1.2⟩
    · rw [if_neg hk] at hl
      exact ih hg.2 hl

theorem goodList_get : ∀ (l : List JsValue) (i : Nat) (v : JsValue),
    goodList l = true → l[i]? = some v → goodVal v = true
  | a :: r, 0, v, hg, hl => by
    rw [show goodList (a :: r) = (goodVal a && goodList r) from rfl] at hg
    simp only [Bool.and_eq_true] at hg
    simp only [List.getElem?_cons_zero] at hl
    injection hl with hl
    exact hl ▸ hg.1
  | a :: r, i + 1, v, hg, hl => by
    rw [show goodList (a :: r) = (goodVal a && goodList r) from rfl] at hg
    simp only [Bool.and_eq_true] at hg
    exact goodList_get r i v hg.2 (by simpa using hl)
  | [], i, v, _, hl => by simp at hl

theorem goodEntries_setEntry (k : Str) (v : JsValue) :
    ∀ es, goodEntries es = true → goodVal v = true → entryCond k v = true →
      goodEntries (setEntry k v es) = true := by
  intro es
  induction es with
  | nil =>
    intro _ hv hc
    simp [setEntry, goodEntries, hv, hc]
  | cons kv r ih =>
    obtain ⟨k', v'⟩ := kv
    intro hg hv hc
    rw [show goodEntries ((k', v') :: r) =
      (goodVal v' && entryCond k' v' && goodEntries r) from rfl] at hg
    simp only [Bool.and_eq_true] at hg
    by_cases hk : k' = k
    · simp only [setEntry, if_pos hk]
      rw [show goodEntries ((k, v) :: r) =
        (goodVal v && entryCond k v && goodEntries r) from rfl]
      simp [hv, hc, hg.2]
    · simp only [setEntry, if_neg hk]
      rw [show goodEntries ((k', v') :: setEntry k v r) =
        (goodVal v' && entryCond k' v' && goodEntries (setEntry k v r)) from rfl]
      simp [hg.1.1, hg.1.2, ih hg.2 hv hc]

theorem goodList_set : ∀ (l : List JsValue) (i : Nat) (v : JsValue),
    goodList l = true → goodVal v = true → goodList (l.set i v) = true
  | [], _, _, _, _ => rfl
  | a :: r, 0, v, hg, hv => by
    rw [show goodList (a :: r) = (goodVal a && goodList r) from rfl] at hg
    simp only [Bool.and_eq_true] at hg
    simp only [List.set]
    rw [show goodList (v :: r) = (goodVal v && goodList r) from rfl]
    simp [hv, hg.2]
  | a :: r, i + 1, v, hg, hv => by
    rw [show goodList (a :: r) = (goodVal a && goodList r) from rfl] at hg
    simp only [Bool.and_eq_true] at hg
    simp only [List.set]
    rw [show goodList (a :: r.set i v) = (goodVal a && goodList (r.set i v)) from rfl]
    simp [hg.1, goodList_set r i v hg.2 hv]

theorem goodList_append : ∀ (a b : List JsValue),
    goodList a = true → goodList b = true → goodList (a ++ b) = true
  | [], b, _, hb => hb
  | x :: r, b, ha, hb => by
    rw [show goodList (x :: r) = (goodVal x && goodList r) from rfl] at ha
    simp only [Bool.and_eq_true] at ha
    rw [List.cons_append,
      show goodList (x :: (r ++ b)) = (goodVal x && goodList (r ++ b)) from rfl]
    simp [ha.1, goodList_append r b ha.2 hb]

theorem goodEntries_mem : ∀ (es : Entries) (k : Str) (v : JsValue),
    goodEntries es = true → (k, v) ∈ es →
      goodVal v = true ∧ entryCond k v = true := by
  intro es
  induction es with
  | nil => intro k v _ h; simp at h
  | cons kv r ih =>
    obtain ⟨k', v'⟩ := kv
    intro k v hg hm
    rw [show goodEntries ((k', v') :: r) =
      (goodVal v' && entryCond k' v' && goodEntries r) from rfl] at hg
    simp only [Bool.and_eq_true] at hg
    rcases List.mem_cons.mp hm with h | h
    · injection h with h1 h2
      subst h1
      subst h2
      exact ⟨hg.1.1, hg.1.2⟩
    · exact ih k v hg.2 h

theorem mergeBase_good (v : JsValue) (h : goodVal v = true) :
    goodList (mergeBase v) = true := by
  cases v with
  | arr l => exact h
  | str s => rfl
  | obj es =>
    rw [show mergeBase (.obj es) = [.obj es] from rfl,
      show goodList [JsValue.obj es] = (goodVal (.obj es) && goodList []) from rfl]
    simp only [Bool.and_eq_true]
    exact ⟨h, rfl⟩

theorem goodList_map_str (l : List Str) : goodList (l.map .str) = true := by
  induction l with
  | nil => rfl
  | cons s r ih =>
    rw [List.map_cons,
      show goodList (JsValue.str s :: r.map .str) =
        (goodVal (.str s) && goodList (r.map .str)) from rfl]
    simp [ih, goodVal]

/-- Members of a good tree are good. -/
theorem resolveSegs_good : ∀ (segs : List Str) (t v : JsValue),
    goodVal t = true → resolveSegs t segs = some v → goodVal v = true
  | [], t, v, hg, hr => by
    simp only [resolveSegs] at hr
    injection hr with hr
    exact hr ▸ hg
  | q :: rest, t, v, hg, hr => by
    rw [resolveSegs_cons] at hr
    cases t with
    | str s => simp [childAt] at hr
    | obj es =>
      cases hc : lookupEntry (unsafeKey q) es with
      | none => rw [show childAt (.obj es) q = lookupEntry (unsafeKey q) es from rfl, hc] at hr; cases hr
      | some c =>
        rw [show childAt (.obj es) q = lookupEntry (unsafeKey q) es from rfl, hc] at hr
        exact resolveSegs_good rest c v
          (goodEntries_lookup (unsafeKey q) es hg hc).1 hr
    | arr l =>
      cases hi : strToIndex? (unsafeKey q) with
      | none => simp [childAt, hi] at hr
      | some i =>
        cases hgt : l[i]? with
        | none => simp [childAt, hi, hgt] at hr
        | some c =>
          simp only [childAt, hi, hgt] at hr
          exact resolveSegs_good rest c v (goodList_get l i c hg hgt) hr

theorem getLastD_of_ne_nil (l : List Str) (a b : Str) (h : l ≠ []) :
    l.getLastD a = l.getLastD b := by
  cases l with
  | nil => exact absurd rfl h
  | cons x r => rw [List.getLastD_cons, List.getLastD_cons]

theorem lastSeg_cons₂ (q q2 : Str) (rest : List Str) :
    lastSeg (q :: q2 :: rest) = lastSeg (q2 :: rest) := by
  unfold lastSeg
  rw [List.getLastD_cons]
  exact getLastD_of_ne_nil (q2 :: rest) q [] (by simp)

/-- A good tree's array found at a nonempty path satisfies the per-entry
condition at the path's last segment, unless the final container is itself
an array. -/
theorem resolveSegs_arr_cond : ∀ (segs : List Str) (t : JsValue) (l : List JsValue),
    segs ≠ [] → goodVal t = true → resolveSegs t segs = some (.arr l) →
    unsafeKey (lastSeg segs) = "_lua".data ∨ 2 ≤ l.length ∨
      finalContainerArr t segs = true
  | [], _, _, hne, _, _ => absurd rfl hne
  | [q], t, l, _, hg, hr => by
    rw [resolveSegs_cons] at hr
    cases t with
    | str s => simp [childAt] at hr
    | arr la => exact Or.inr (Or.inr rfl)
    | obj es =>
      cases hc : lookupEntry (unsafeKey q) es with
      | none =>
        rw [show childAt (.obj es) q = lookupEntry (unsafeKey q) es from rfl, hc] at hr
        cases hr
      | some c =>
        rw [show childAt (.obj es) q = lookupEntry (unsafeKey q) es from rfl, hc] at hr
        simp only [resolveSegs] at hr
        injection hr with hr
        subst hr
        have hcond := (goodEntries_lookup (unsafeKey q) es hg hc).2
        simp only [entryCond, Bool.or_eq_true, decide_eq_true_eq] at hcond
        rcases hcond with h | h
        · exact Or.inl h
        · exact Or.inr (Or.inl h)
  | q :: q2 :: rest, t, l, _, hg, hr => by
    rw [resolveSegs_cons] at hr
    cases t with
    | str s => simp [childAt] at hr
    | obj es =>
      cases hc : lookupEntry (unsafeKey q) es with
      | none =>
        rw [show childAt (.obj es) q = lookupEntry (unsafeKey q) es from rfl, hc] at hr
        cases hr
      | some c =>
        rw [show childAt (.obj es) q = lookupEntry (unsafeKey q) es from rfl, hc] at hr
        have := resolveSegs_arr_cond (q2 :: rest) c l (by simp)
          (goodEntries_lookup (unsafeKey q) es hg hc).1 hr
        rw [lastSeg_cons₂, show finalContainerArr (.obj es) (q :: q2 :: rest) =
          (match lookupEntry (unsafeKey q) es with
            | some c => finalContainerArr c (q2 :: rest)
            | none => false) from rfl, hc]
        exact this
    | arr la =>
      cases hi : strToIndex? (unsafeKey q) with
      | none => simp [childAt, hi] at hr
      | some i =>
        cases hgt : la[i]? with
        | none => simp [childAt, hi, hgt] at hr
        | some c =>
          simp only [childAt, hi, hgt] at hr
          have := resolveSegs_arr_cond (q2 :: rest) c l (by simp)
            (goodList_get la i c hg hgt) hr
          rw [lastSeg_cons₂, show finalContainerArr (.arr la) (q :: q2 :: rest) =
            (match strToIndex? (unsafeKey q) with
              | some i =>
                match la[i]? with
                | some c => finalContainerArr c (q2 :: rest)
                | none => false
              | none => false) from rfl]
          simp only [hi, hgt]
          exact this

/-- `resolveSetSegs` on an array yields an array at least as long. -/
theorem resolveSetSegs_arr_shape (la : List JsValue) (segs : List Str) (v : JsValue) :
    ∃ la', (resolveSetSegs (.arr la) segs v).2 = .arr la' ∧
      la.length ≤ la'.length := by
  match segs with
  | [] => exact ⟨la, rfl, Nat.le_refl _⟩
  | [q] =>
    cases hi : strToIndex? (unsafeKey q) with
    | none => exact ⟨la, by simp [resolveSetSegs, hi], Nat.le_refl _⟩
    | some i =>
      by_cases h1 : i < la.length
      · exact ⟨la.set i v, by simp [resolveSetSegs, hi, h1], by simp⟩
      · by_cases h2 : i = la.length
        · exact ⟨la ++ [v], by simp [resolveSetSegs, hi, h1, h2], by simp⟩
        · exact ⟨la, by simp [resolveSetSegs, hi, h1, h2], Nat.le_refl _⟩
  | q :: q2 :: rest =>
    cases hi : strToIndex? (unsafeKey q) with
    | none => exact ⟨la, by simp [resolveSetSegs, hi], Nat.le_refl _⟩
    | some i =>
      cases hg : la[i]? with
      | none => exact ⟨la, by simp [resolveSetSegs, hi, hg], Nat.le_refl _⟩
      | some c =>
        exact ⟨la.set i (resolveSetSegs c (q2 :: rest) v).2,
          by simp [resolveSetSegs, hi, hg], by simp⟩

/-- The write of `resolveSetSegs` preserves the collection-size invariant,
provided an array value is only written under the key `_lua`, with at
least two elements, or into an array slot. -/
theorem resolveSetSegs_good : ∀ (segs : List Str) (t v : JsValue),
    goodVal t = true → goodVal v = true →
    (∀ l, v = .arr l → unsafeKey (lastSeg segs) = "_lua".data ∨ 2 ≤ l.length ∨
      finalContainerArr t segs = true) →
    goodVal (resolveSetSegs t segs v).2 = true
  | [], t, v, hg, _, _ => by cases t <;> exact hg
  | q :: rest, .str s, v, hg, _, _ => hg
  | [q], .obj es, v, hg, hv, hcond => by
    rw [show (resolveSetSegs (.obj es) [q] v).2 =
      .obj (setEntry (unsafeKey q) v es) from rfl]
    rw [show goodVal (.obj (setEntry (unsafeKey q) v es)) =
      goodEntries (setEntry (unsafeKey q) v es) from rfl]
    apply goodEntries_setEntry _ _ _ hg hv
    cases v with
    | str s => rfl
    | obj es2 => rfl
    | arr l =>
      rcases hcond l rfl with h | h | h
      · simp [entryCond, lastSeg] at h ⊢
        exact Or.inl h
      · simp only [entryCond, Bool.or_eq_true, decide_eq_true_eq]
        exact Or.inr h
      · exact absurd h (by simp [finalContainerArr])
  | [q], .arr la, v, hg, hv, _ => by
    cases hi : strToIndex? (unsafeKey q) with
    | none => simpa [resolveSetSegs, hi] using hg
    | some i =>
      by_cases h1 : i < la.length
      · rw [show (resolveSetSegs (.arr la) [q] v).2 = .arr (la.set i v) from
          by simp [resolveSetSegs, hi, h1]]
        exact goodList_set la i v hg hv
      · by_cases h2 : i = la.length
        · rw [show (resolveSetSegs (.arr la) [q] v).2 = .arr (la ++ [v]) from
            by simp [resolveSetSegs, hi, h1, h2]]
          rw [show goodVal (.arr (la ++ [v])) = goodList (la ++ [v]) from rfl]
          apply goodList_append la [v] hg
          rw [show goodList [v] = (goodVal v && goodList []) from rfl]
          simp only [Bool.and_eq_true]
          exact ⟨hv, rfl⟩
        · simpa [resolveSetSegs, hi, h1, h2] using hg
  | q :: q2 :: rest, .obj es, v, hg, hv, hcond => by
    cases hc : lookupEntry (unsafeKey q) es with
    | none => simpa [resolveSetSegs, hc] using hg
    | some c =>
      obtain ⟨hgc, hcc⟩ := goodEntries_lookup (unsafeKey q) es hg hc
      have ihgood : goodVal (resolveSetSegs c (q2 :: rest) v).2 = true := by
        apply resolveSetSegs_good (q2 :: rest) c v hgc hv
        intro l hvl
        rcases hcond l hvl with h | h | h
        · exact Or.inl (lastSeg_cons₂ q q2 rest ▸ h)
        · exact Or.inr (Or.inl h)
        · rw [show finalContainerArr (.obj es) (q :: q2 :: rest) =
            (match lookupEntry (unsafeKey q) es with
              | some c => finalContainerArr c (q2 :: rest)
              | none => false) from rfl, hc] at h
          exact Or.inr (Or.inr h)
      rw [show (resolveSetSegs (.obj es) (q :: q2 :: rest) v).2 =
        .obj (setEntry (unsafeKey q)
          (resolveSetSegs c (q2 :: rest) v).2 es) from by simp [resolveSetSegs, hc]]
      rw [show goodVal (.obj (setEntry (unsafeKey q)
        (resolveSetSegs c (q2 :: rest) v).2 es)) =
        goodEntries (setEntry (unsafeKey q)
          (resolveSetSegs c (q2 :: rest) v).2 es) from rfl]
      apply goodEntries_setEntry _ _ _ hg ihgood
      cases c with
      | str s =>
        rw [show (resolveSetSegs (.str s) (q2 :: rest) v).2 = .str s from rfl]
        rfl
      | obj es2 =>
        obtain ⟨es3, hes3⟩ := resolveSetSegs_obj_shape es2 (q2 :: rest) v
        rw [hes3]
        rfl
      | arr la =>
        obtain ⟨la', hla', hlen⟩ := resolveSetSegs_arr_shape la (q2 :: rest) v
        rw [hla']
        simp only [entryCond, Bool.or_eq_true, decide_eq_true_eq] at hcc ⊢
        rcases hcc with h | h
        · exact Or.inl h
        · exact Or.inr (Nat.le_trans h hlen)
  | q :: q2 :: rest, .arr la, v, hg, hv, hcond => by
    cases hi : strToIndex? (unsafeKey q) with
    | none => simpa [resolveSetSegs, hi] using hg
    | some i =>
      cases hgt : la[i]? with
      | none => simpa [resolveSetSegs, hi, hgt] using hg
      | some c =>
        have ihgood : goodVal (resolveSetSegs c (q2 :: rest) v).2 = true := by
          apply resolveSetSegs_good (q2 :: rest) c v (goodList_get la i c hg hgt) hv
          intro l hvl
          rcases hcond l hvl with h | h | h
          · exact Or.inl (lastSeg_cons₂ q q2 rest ▸ h)
          · exact Or.inr (Or.inl h)
          · rw [show finalContainerArr (.arr la) (q :: q2 :: rest) =
              (match strToIndex? (unsafeKey q) with
                | some i =>
                  match la[i]? with
                  | some c => finalContainerArr c (q2 :: rest)
                  | none => false
                | none => false) from rfl] at h
            simp only [hi, hgt] at h
            exact Or.inr (Or.inr h)
        rw [show (resolveSetSegs (.arr la) (q :: q2 :: rest) v).2 =
          .arr (la.set i (resolveSetSegs c (q2 :: rest) v).2) from
          by simp [resolveSetSegs, hi, hgt]]
        exact goodList_set la i _ hg ihgood

/-- The merge of `resolveAppendSet` preserves the collection-size
invariant under the same write-target condition. -/
theorem resolveAppendSet_good (json : Entries) (key : Str) (val : JsValue)
    (hg : goodEntries json = true) (hv : goodVal val = true)
    (hcond : ∀ l, val = .arr l →
      unsafeKey (lastSeg (splitOnChar '.' key)) = "_lua".data ∨
      2 ≤ l.length ∨ finalContainerArr (.obj json) (splitOnChar '.' key) = true) :
    goodEntries (resolveAppendSet json key val).2 = true := by
  have hgv : goodVal (.obj json) = true := hg
  unfold resolveAppendSet
  cases hres : resolve json key with
  | none =>
    obtain ⟨es', hes', heq⟩ := resolveSet_eq json key val
    simp only [heq]
    have hgood := resolveSetSegs_good (splitOnChar '.' key) (.obj json) val hgv hv hcond
    rw [hes'] at hgood
    exact hgood
  | some ev =>
    have hevg : goodVal ev = true := resolveSegs_good _ _ _ hgv hres
    by_cases htr : truthy ev = true
    · simp only [htr, if_true]
      obtain ⟨es', hes', heq⟩ :=
        resolveSet_eq json key (.arr (mergeBase ev ++ mergeBase val))
      simp only [heq]
      have hmg : goodVal (.arr (mergeBase ev ++ mergeBase val)) = true := by
        rw [show goodVal (.arr (mergeBase ev ++ mergeBase val)) =
          goodList (mergeBase ev ++ mergeBase val) from rfl]
        exact goodList_append _ _ (mergeBase_good ev hevg) (mergeBase_good val hv)
      have hmcond : ∀ l, (.arr (mergeBase ev ++ mergeBase val) : JsValue) = .arr l →
          unsafeKey (lastSeg (splitOnChar '.' key)) = "_lua".data ∨
          2 ≤ l.length ∨
          finalContainerArr (.obj json) (splitOnChar '.' key) = true := by
        intro l hl
        injection hl with hl
        subst hl
        cases hev : ev with
        | arr la =>
          rw [hev] at hres
          rcases resolveSegs_arr_cond (splitOnChar '.' key) (.obj json) la
            (splitOnChar_ne_nil '.' key) hgv hres with h | h | h
          · exact Or.inl h
          · refine Or.inr (Or.inl ?_)
            rw [show mergeBase (.arr la) = la from rfl, List.length_append]
            omega
          · exact Or.inr (Or.inr h)
        | str s' =>
          cases hval : val with
          | arr lv =>
            rcases hcond lv hval with h | h | h
            · exact Or.inl h
            · refine Or.inr (Or.inl ?_)
              rw [show mergeBase (.str s') = [.str s'] from rfl,
                show mergeBase (.arr lv) = lv from rfl, List.length_append]
              simp only [List.length_singleton]
              omega
            · exact Or.inr (Or.inr h)
          | str s2 => exact Or.inr (Or.inl (by simp [mergeBase]))
          | obj es2 => exact Or.inr (Or.inl (by simp [mergeBase]))
        | obj eso =>
          cases hval : val with
          | arr lv =>
            rcases hcond lv hval with h | h | h
            · exact Or.inl h
            · refine Or.inr (Or.inl ?_)
              rw [show mergeBase (.obj eso) = [.obj eso] from rfl,
                show mergeBase (.arr lv) = lv from rfl, List.length_append]
              simp only [List.length_singleton]
              omega
            · exact Or.inr (Or.inr h)
          | str s2 => exact Or.inr (Or.inl (by simp [mergeBase]))
          | obj es2 => exact Or.inr (Or.inl (by simp [mergeBase]))
      have hgood := resolveSetSegs_good (splitOnChar '.' key) (.obj json)
        (.arr (mergeBase ev ++ mergeBase val)) hgv hmg hmcond
      rw [hes'] at hgood
      exact hgood
    · simp only [htr, if_false]
      obtain ⟨es', hes', heq⟩ := resolveSet_eq json key val
      simp only [heq]
      have hgood := resolveSetSegs_good (splitOnChar '.' key) (.obj json) val hgv hv hcond
      rw [hes'] at hgood
      exact hgood

/-- `appendValue` preserves the collection-size invariant whenever the
appended value satisfies the per-entry condition at its own key (an array
value is only appended under `_lua` or with at least two elements). -/
theorem appendValue_good (json : Entries) (k : Str) (val : JsValue) (par : Str)
    (hg : goodEntries json = true) (hv : goodVal val = true)
    (hc : entryCond k val = true) :
    goodEntries (appendValue json k val par).2 = true := by
  unfold appendValue
  split
  · apply resolveAppendSet_good _ _ _ hg hv
    intro l hl
    subst hl
    simp only [entryCond, Bool.or_eq_true, decide_eq_true_eq] at hc
    rcases hc with h | h
    · refine Or.inl ?_
      subst h
      rw [splitOnChar_append_general '.' par "_lua".data]
      unfold lastSeg
      rw [getLastD_append_of_ne_nil _ _ (splitOnChar_ne_nil '.' "_lua".data)]
      decide
    · exact Or.inr (Or.inl h)
  · apply resolveAppendSet_good _ _ _ hg hv
    intro l hl
    subst hl
    simp only [entryCond, Bool.or_eq_true, decide_eq_true_eq] at hc
    rcases hc with h | h
    · refine Or.inl ?_
      subst h
      decide
    · exact Or.inr (Or.inl h)

theorem stepOpen_good (st : PState) (line : Str)
    (hg : goodEntries st.json = true) :
    goodEntries (stepOpen st line).json = true := by
  unfold stepOpen
  dsimp only
  repeat' split
  all_goals exact appendValue_good st.json _ (.obj []) [] hg rfl rfl

theorem stepDirective_good (st : PState) (line : Str)
    (hg : goodEntries st.json = true) :
    goodEntries (stepDirective st line).json = true := by
  unfold stepDirective
  dsimp only
  exact appendValue_good _ _ _ _ hg rfl rfl

theorem stepClose_good (st : PState) (hg : goodEntries st.json = true) :
    goodEntries (stepClose st).json = true := by
  have hpop : ∀ st2 : PState, (stepClosePop st2).json = st2.json := by
    intro st2
    unfold stepClosePop
    split <;> rfl
  unfold stepClose
  rw [hpop]
  unfold stepCloseLua
  split
  · exact appendValue_good _ _ _ _ hg (goodList_map_str st.luaBlockValue)
      (by simp [entryCond])
  · exact hg

theorem mergeOneCfg_good : ∀ (cfg : Entries) (par : Str) (json : Entries),
    goodEntries json = true → goodEntries cfg = true →
    goodEntries (cfg.foldl (fun j2 kv => (appendValue j2 kv.1 kv.2 par).2) json) = true
  | [], _, _, hg, _ => hg
  | (k, v) :: r, par, json, hg, hcfg => by
    rw [show goodEntries ((k, v) :: r) =
      (goodVal v && entryCond k v && goodEntries r) from rfl] at hcfg
    simp only [Bool.and_eq_true] at hcfg
    rw [List.foldl_cons]
    exact mergeOneCfg_good r par _
      (appendValue_good json k v par hg hcfg.1.1 hcfg.1.2) hcfg.2

theorem mergeIncludes_good : ∀ (files : List Entries) (par : Str) (json : Entries),
    goodEntries json = true → (∀ cfg ∈ files, goodEntries cfg = true) →
    goodEntries (mergeIncludes files par json) = true
  | [], _, _, hg, _ => hg
  | cfg :: r, par, json, hg, hf => by
    unfold mergeIncludes
    rw [List.foldl_cons]
    exact mergeIncludes_good r par _
      (mergeOneCfg_good cfg par json hg (hf cfg (by simp)))
      (fun c hc => hf c (by simp [hc]))

theorem processInnerLine_good (opts : Options) (oracle : IncludeOracle)
    (ho : ∀ p cfg, cfg ∈ oracle p → goodEntries cfg = true)
    (st : PState) (l : Str) (st' : PState)
    (h : processInnerLine opts oracle st l = .ok st')
    (hg : goodEntries st.json = true) : goodEntries st'.json = true := by
  unfold processInnerLine at h
  split at h
  · injection h with h
    exact h ▸ hg
  split at h
  · injection h with h
    exact h ▸ hg
  split at h
  · injection h with h
    exact h ▸ stepOpen_good st _ hg
  split at h
  · unfold stepInclude at h
    split at h
    · cases h
    · injection h with h
      exact h ▸ mergeIncludes_good _ _ _ hg (fun cfg hc => ho _ cfg hc)
  split at h
  · injection h with h
    exact h ▸ stepDirective_good st _ hg
  split at h
  · injection h with h
    exact h ▸ stepClose_good st hg
  · injection h with h
    exact h ▸ hg

theorem foldSteps_good (f : PState → Str → Except PErr PState)
    (hf : ∀ st l st', f st l = .ok st' →
      goodEntries st.json = true → goodEntries st'.json = true) :
    ∀ (ls : List Str) (st st' : PState), foldSteps f st ls = .ok st' →
      goodEntries st.json = true → goodEntries st'.json = true
  | [], st, st', h, hg => by
    unfold foldSteps at h
    injection h with h
    exact h ▸ hg
  | l :: r, st, st', h, hg => by
    unfold foldSteps at h
    split at h
    · rename_i st1 hf1
      exact foldSteps_good f hf r st1 st' h (hf st l st1 hf1 hg)
    · cases h

theorem processLine_good (opts : Options) (oracle : IncludeOracle)
    (ho : ∀ p cfg, cfg ∈ oracle p → goodEntries cfg = true)
    (st : PState) (l : Str) (st' : PState)
    (h : processLine opts oracle st l = .ok st')
    (hg : goodEntries st.json = true) : goodEntries st'.json = true := by
  unfold processLine at h
  split at h
  · injection h with h
    exact h ▸ hg
  · exact foldSteps_good _ (processInnerLine_good opts oracle ho) _ st st' h hg

/-- Claim C9 counterexample: a one-line `by_lua_block` body produces the
one-element array `["foo"]` as the value of the `_lua` entry, so a parse
result can contain an array-valued entry with fewer than 2 elements. -/
theorem collection_size_failure :
    toJSON ("x_by_lua_block \x7b\nfoo\n\x7d").data =
      .ok [("x_by_lua_block".data,
        .obj [("_lua".data, .arr [.str "foo".data])])] ∧
    ([JsValue.str "foo".data] : List JsValue).length = 1 :=
  ⟨by decide, by decide⟩

/-- Claim C9 (amended): in every tree `toJSON` returns -- including include
fragments merged in, provided they themselves satisfy the invariant --
every array-valued entry that is not under the reserved key `_lua` has at
least 2 elements, recursively at every nesting level (this is the
`goodEntries` predicate).  Arrays under `_lua` (verbatim lua lines) may
have any length, including 0 and 1. -/
theorem parse_collection_invariant :
    ∀ (conf : Str) (opts : Options) (oracle : IncludeOracle) (es : Entries),
      (∀ p cfg, cfg ∈ oracle p → goodEntries cfg = true) →
      toJSON conf opts oracle = .ok es → goodEntries es = true := by
  intro conf opts oracle es ho h
  unfold toJSON at h
  cases hf : foldSteps (processLine opts oracle) {}
      (splitOnChar '\n' (removeFirst ['\t'] conf)) with
  | error e =>
    rw [hf] at h
    cases h
  | ok st =>
    rw [hf] at h
    simp only [Except.map] at h
    injection h with h
    exact h ▸ foldSteps_good _ (processLine_good opts oracle ho) _ {} st hf rfl

/-- Witness for the amended claim C9: a parse that promotes a duplicated
key satisfies the invariant. -/
theorem parse_collection_invariant_witness :
    goodEntries [("a".data, JsValue.arr [.str "x".data, .str "y".data])] = true :=
  parse_collection_invariant "a x;\na y;".data {} (fun _ => [])
    [("a".data, .arr [.str "x".data, .str "y".data])]
    (fun p cfg hc => by simp at hc) (by decide)

end NginxParser
